import Mathlib

/-!
Verification of the Resume_Optimizer core against its specification.

The Python sources are shallowly embedded over `List Char` (one Python `str`
is one `List Char`; Python `str.lower` is modelled by `Char.toLower`, which
agrees with Python on ASCII, the alphabet of every table in the program).
Python floats are modelled as exact rationals (`ℚ`); `round(x, 2)` is
modelled by `round2` (round half to even at two decimals, Python's rounding
on exact values).  Counters (`collections.Counter`) are modelled as total
functions `List Char → Nat` updated pointwise, since Python's `Counter`
returns `0` for missing keys.

Embedded modules:
  * `src/ats/keyword_extract.py` : `normalise`, `extract_keywords` (basic
    frequency path), and a fuelled model of the mutually recursive
    `extract_keywords_openai` / `extract_keywords` pair.
  * `src/ats/scorer.py`          : `ATSScorer.score` and the four metrics.
  * `src/latex/ast_parser.py`    : `parse_document`, `Document.replace_bullet`,
    `Document.render`.
  * `src/latex/rewriter.py`      : `replace_synonym`, `optimize_bullet_openai`
    (the OpenAI response is an oracle parameter; every failure branch of the
    Python function collapses to "return the original content", modelled by
    the oracle value `none`), and `optimize_resume`.  The run state carries
    ghost counters (`inserted`, `recorded`, `appends`) that record which
    branch performed each ledger increment; they alter no computed text.
-/

/-- A Python string. -/
abbrev Tok := List Char

/-- Python `str.lower` (ASCII-faithful: `Char.toLower` only maps A–Z). -/
def pyLower (s : Tok) : Tok := s.map Char.toLower

/-- Python `sub in s` (substring test; the empty string is a substring of
everything, as in Python). -/
def hasSub (s sub : Tok) : Bool :=
  if sub.isPrefixOf s then true
  else
    match s with
    | [] => false
    | _ :: rest => hasSub rest sub

/-- Python `s.find(sub)`: index of the first occurrence, `none` for `-1`. -/
def findSub (s sub : Tok) : Option Nat :=
  if sub.isPrefixOf s then some 0
  else
    match s with
    | [] => none
    | _ :: rest => (findSub rest sub).map (· + 1)

/-- Helper for `countSub`: scan for non-overlapping occurrences of the
nonempty pattern `sub`.  The fuel argument makes the recursion structural
(the scanned list shrinks by at least one character per step, so fuel
`s.length + 1` always suffices). -/
def countGo (sub : Tok) : Nat → Tok → Nat
  | 0, _ => 0
  | fuel + 1, s =>
    if sub.isPrefixOf s ∧ sub ≠ [] then
      1 + countGo sub fuel (s.drop sub.length)
    else
      match s with
      | [] => 0
      | _ :: rest => countGo sub fuel rest

/-- Python `s.count(sub)`: non-overlapping occurrence count; the empty
pattern yields `len(s) + 1`, as in Python. -/
def countSub (s sub : Tok) : Nat :=
  if sub = [] then s.length + 1 else countGo sub (s.length + 1) s

/-- Python `str.splitlines` restricted to `'\n'` separators (the only line
separator occurring in the program's documents). -/
def splitGo (cur : Tok) : Tok → List Tok
  | [] => [cur.reverse]
  | c :: rest =>
    if c = '\n' then
      cur.reverse :: (if rest.isEmpty then [] else splitGo [] rest)
    else
      splitGo (c :: cur) rest

/-- Python `s.splitlines()` (newline-only model): `"" → []`, a single
trailing newline produces no empty final line. -/
def splitlines (s : Tok) : List Tok :=
  if s.isEmpty then [] else splitGo [] s

/-- Python `"\n".join(lines)` on a list of lines. -/
def joinNL : List Tok → Tok
  | [] => []
  | [l] => l
  | l :: rest => l ++ '\n' :: joinNL rest

/-- Python `str.strip()` (whitespace at both ends). -/
def pyStrip (s : Tok) : Tok :=
  ((s.dropWhile Char.isWhitespace).reverse.dropWhile Char.isWhitespace).reverse

/-- Helper for `pySplit`; fuel makes the recursion structural (the list
shrinks by at least one character per emitted word, so `s.length + 1`
always suffices). -/
def pySplitGo : Nat → Tok → List Tok
  | 0, _ => []
  | fuel + 1, s =>
    match s.dropWhile Char.isWhitespace with
    | [] => []
    | c :: rest =>
      (c :: rest.takeWhile (fun ch => !ch.isWhitespace)) ::
        pySplitGo fuel (rest.dropWhile (fun ch => !ch.isWhitespace))

/-- Python `str.split()` with no argument: split on whitespace runs,
dropping empty fields. -/
def pySplit (s : Tok) : List Tok :=
  pySplitGo (s.length + 1) s

/-- `abs(a - b)` on Python ints that hold string lengths. -/
def natDist (a b : Nat) : Nat := ((a : Int) - (b : Int)).natAbs

-- Sanity checks of the Python semantics of the primitives.
example : hasSub "abc".data "b".data = true := by decide
example : hasSub "abc".data "".data = true := by decide
example : countSub "aaa".data "aa".data = 1 := by decide
example : countSub "aaaa".data "aa".data = 2 := by decide
example : countSub "ab".data "".data = 3 := by decide
example : findSub "abcab".data "ab".data = some 0 := by decide
example : findSub "xabcab".data "ab".data = some 1 := by decide
example : findSub "xyz".data "ab".data = none := by decide
example : splitlines "a\nb".data = ["a".data, "b".data] := by decide
example : splitlines "a\n".data = ["a".data] := by decide
example : splitlines "\n\n".data = ["".data, "".data] := by decide
example : splitlines "".data = [] := by decide
example : joinNL ["a".data, "".data, "b".data] = "a\n\nb".data := by decide
example : pySplit "  led  the team ".data = ["led".data, "the".data, "team".data] := by decide
example : pyStrip "  a b ".data = "a b".data := by decide
example : pyLower "AbC+".data = "abc+".data := by decide
example : natDist 3 7 = 4 := by decide

/-! ### Static tables of `src/ats/keyword_extract.py` and `src/ats/scorer.py` -/

/-- `STOPWORDS` of `keyword_extract.py`. -/
def STOPWORDS : List Tok :=
  ["the".data, "and".data, "for".data, "with".data, "that".data, "this".data,
   "from".data, "into".data, "will".data, "your".data, "have".data, "work".data,
   "team".data, "role".data, "skills".data, "required".data,
   "responsibilities".data, "experience".data]

/-- The curated `SYNONYMS` dict of `keyword_extract.py`, as a total function;
each value list is in lexicographic order, which is the order `sorted(...)`
produces in `extract_keywords` (a Python `set`'s own iteration order is
unspecified; where the rewriter iterates the set-union of synonyms, this
model fixes this concrete enumeration order). -/
def SYNONYMS (t : Tok) : List Tok :=
  if t = "sql".data then ["mysql".data, "postgres".data, "redshift".data]
  else if t = "python".data then ["numpy".data, "pandas".data]
  else if t = "dashboard".data then ["looker".data, "powerbi".data, "tableau".data]
  else if t = "analysis".data then ["analytical".data, "analytics".data]
  else if t = "manage".data then ["lead".data, "led".data, "oversaw".data]
  else if t = "project".data then ["initiative".data, "program".data]
  else if t = "communication".data then ["presentation".data, "stakeholder".data]
  else if t = "cloud".data then ["aws".data, "azure".data, "gcp".data]
  else if t = "automation".data then ["orchestration".data, "workflow".data]
  else if t = "testing".data then ["qa".data, "quality".data]
  else []

/-- `ACTION_VERBS` of `scorer.py`. -/
def ACTION_VERBS : List Tok :=
  ["accelerated".data, "achieved".data, "built".data, "coordinated".data,
   "delivered".data, "designed".data, "developed".data, "drove".data,
   "enabled".data, "improved".data, "implemented".data, "launched".data,
   "led".data, "managed".data, "optimized".data, "owned".data, "reduced".data,
   "scaled".data, "spearheaded".data, "streamlined".data]

/-- `REQUIRED_SECTIONS` of `scorer.py`. -/
def REQUIRED_SECTIONS : List Tok :=
  ["experience".data, "education".data, "skills".data]

/-- `KeywordCandidate` of `keyword_extract.py`. -/
structure Cand where
  token : Tok
  score : ℚ
  synonyms : List Tok
deriving DecidableEq, Repr

/-! ### Tokenizer (`TOKEN_PATTERN` and `normalise`) -/

/-- `[a-zA-Z]` of `TOKEN_PATTERN` (ASCII letters). -/
def isAsciiAlpha (c : Char) : Bool :=
  (65 ≤ c.toNat && c.toNat ≤ 90) || (97 ≤ c.toNat && c.toNat ≤ 122)

/-- `[a-zA-Z0-9+.#-]` of `TOKEN_PATTERN`. -/
def isTokChar (c : Char) : Bool :=
  isAsciiAlpha c || (48 ≤ c.toNat && c.toNat ≤ 57) ||
    c = '+' || c = '.' || c = '#' || c = '-'

/-- `TOKEN_PATTERN.finditer`: leftmost non-overlapping matches of
"letter followed by at least two token characters" (the `{2,}` repetition
is greedy and ends the pattern, so each match takes the maximal run).
The fuel makes the recursion structural; every step consumes at least one
character, so the `s.length + 1` fuel of `tokenize` always suffices. -/
def tokenizeF : Nat → Tok → List Tok
  | 0, _ => []
  | _, [] => []
  | fuel + 1, c :: rest =>
    if isAsciiAlpha c then
      let run := rest.takeWhile isTokChar
      if 2 ≤ run.length then
        (c :: run) :: tokenizeF fuel (rest.drop run.length)
      else tokenizeF fuel rest
    else tokenizeF fuel rest

/-- All matches of `TOKEN_PATTERN` in `s`. -/
def tokenize (s : Tok) : List Tok := tokenizeF (s.length + 1) s

/-- `normalise` of `keyword_extract.py`: pattern matches, lower-cased, with
stop words removed. -/
def normalise (text : Tok) : List Tok :=
  ((tokenize text).map pyLower).filter (fun t => !STOPWORDS.contains t)

/-- `_ngram(tokens, 2)`: adjacent pairs joined with a single space. -/
def bigramsOf : List Tok → List Tok
  | a :: b :: rest => (a ++ ' ' :: b) :: bigramsOf (b :: rest)
  | _ => []

example : tokenize "Python analytics automation python dashboard analytics".data =
    ["Python".data, "analytics".data, "automation".data, "python".data,
     "dashboard".data, "analytics".data] := by decide
example : tokenize "C# a b2 ab abc x-y".data = ["abc".data, "x-y".data] := by decide
example : normalise "The Team delivered Python work".data =
    ["delivered".data, "python".data] := by decide
example : bigramsOf ["a".data, "bc".data, "d".data] =
    ["a bc".data, "bc d".data] := by decide

/-! ### Stable sorting (model of Python's stable `sorted` / `most_common`) -/

/-- Insert `a` before the first element `b` with `le a b` (stable insertion:
with `le` read as "must come no later than", equal elements keep their
original relative order, as Python's stable sort does). -/
def insertLE (le : α → α → Bool) (a : α) : List α → List α
  | [] => [a]
  | b :: l => if le a b then a :: b :: l else b :: insertLE le a l

/-- Stable insertion sort; models Python's `sorted(l, key=...)` through a
boolean comparison `le` (total and transitive at every use below). -/
def sortLE (le : α → α → Bool) : List α → List α
  | [] => []
  | a :: l => insertLE le a (sortLE le l)

/-- Fuel-powered first-occurrence deduplication (each step consumes the
head, so `l.length + 1` fuel always suffices; `uniqKeysF_congr` below). -/
def uniqKeysF : Nat → List Tok → List Tok
  | 0, _ => []
  | _, [] => []
  | fuel + 1, a :: rest => a :: uniqKeysF fuel (rest.filter (fun b => b ≠ a))

/-- The distinct elements of `l` in order of first occurrence: the key set,
in insertion order, of a `Counter` built by iterating `l`. -/
def uniqKeys (l : List Tok) : List Tok := uniqKeysF (l.length + 1) l

theorem uniqKeysF_congr : ∀ (f1 : Nat) (l : List Tok) (f2 : Nat),
    l.length < f1 → l.length < f2 → uniqKeysF f1 l = uniqKeysF f2 l := by
  intro f1
  induction f1 with
  | zero => intro l f2 h _; omega
  | succ n ih =>
    intro l f2 h1 h2
    cases l with
    | nil =>
      cases f2 with
      | zero => omega
      | succ m => rfl
    | cons a rest =>
      cases f2 with
      | zero => omega
      | succ m =>
        have hlen := List.length_filter_le (fun b => b ≠ a) rest
        simp only [List.length_cons] at h1 h2
        simp only [uniqKeysF]
        exact congrArg (a :: ·)
          (ih (rest.filter (fun b => b ≠ a)) m (by omega) (by omega))

theorem uniqKeys_nil : uniqKeys [] = [] := rfl

theorem uniqKeys_cons (a : Tok) (rest : List Tok) :
    uniqKeys (a :: rest) = a :: uniqKeys (rest.filter (fun b => b ≠ a)) := by
  have hlen := List.length_filter_le (fun b => b ≠ a) rest
  simp only [uniqKeys, List.length_cons, uniqKeysF]
  exact congrArg (a :: ·)
    (uniqKeysF_congr _ (rest.filter (fun b => b ≠ a)) _ (by omega) (by omega))

/-- Index of the first occurrence of `t` in `l` (`l.index(t)` for members). -/
def firstIdx : List Tok → Tok → Nat
  | [], _ => 0
  | a :: rest, t => if a = t then 0 else 1 + firstIdx rest t

/-- The `first_seen` map of `extract_keywords`: unigram tokens keep their
first index in `tokens`; bigram tokens are offset past all unigram
indices. -/
def firstSeen (tokens bigrams : List Tok) (t : Tok) : Nat :=
  if tokens.contains t then firstIdx tokens t
  else tokens.length + firstIdx bigrams t

/-- The sort key comparison of `extract_keywords`:
`(-score, first_seen)` lexicographically, as a "comes no later than"
boolean (ties in the key compare `true` both ways, matching a stable
sort on equal keys). -/
def candLE (fs : Tok → Nat) (a b : Cand) : Bool :=
  decide (b.score < a.score) ||
    (decide (a.score = b.score) && decide (fs a.token ≤ fs b.token))

/-- Count-descending comparison backing `Counter.most_common` (stable on
ties, like CPython's `sorted(..., key=itemgetter(1), reverse=True)`). -/
def countGE (l : List Tok) (a b : Tok) : Bool :=
  decide (l.count b ≤ l.count a)

/-- A bigram survives iff neither half is a stop word
(`any(part in STOPWORDS for part in token.split())` negated). -/
def okBigram (t : Tok) : Bool :=
  !(pySplit t).any (fun part => STOPWORDS.contains part)

/-- The deduplicate-and-truncate loop of `extract_keywords`: skip candidates
whose token was seen, append the rest, and stop as soon as the output holds
at least `maxK` elements (checked after each append, as in the source). -/
def dedupLoop (maxK : Nat) : List Cand → List Tok → List Cand → List Cand
  | [], _, acc => acc.reverse
  | c :: rest, seen, acc =>
    if seen.contains c.token then dedupLoop maxK rest seen acc
    else
      if maxK ≤ acc.length + 1 then (c :: acc).reverse
      else dedupLoop maxK rest (c.token :: seen) (c :: acc)

/-- Plain keep-first deduplication by token (no truncation). -/
def dedupBy : List Cand → List Tok → List Cand
  | [], _ => []
  | c :: rest, seen =>
    if seen.contains c.token then dedupBy rest seen
    else c :: dedupBy rest (c.token :: seen)

/-- The unigram candidate list of `extract_keywords`: one candidate per
distinct token, in `most_common()` order, scored by occurrence count, with
the curated synonyms attached in sorted order. -/
def uniCands (tokens : List Tok) : List Cand :=
  (sortLE (countGE tokens) (uniqKeys tokens)).map
    (fun t => ⟨t, (tokens.count t : ℚ), SYNONYMS t⟩)

/-- The bigram candidate list of `extract_keywords`: `most_common()` order,
stop-word-containing bigrams skipped, occurrence count plus the 0.5 bonus,
no synonyms. -/
def biCands (bigrams : List Tok) : List Cand :=
  ((sortLE (countGE bigrams) (uniqKeys bigrams)).filter okBigram).map
    (fun t => ⟨t, (bigrams.count t : ℚ) + 1/2, []⟩)

/-- `extract_keywords(text, max_keywords=maxK, use_openai=False)` of
`keyword_extract.py` (the deterministic frequency strategy). -/
def extract_keywords_basic (text : Tok) (maxK : Nat) : List Cand :=
  let tokens := normalise text
  if tokens.isEmpty then []
  else
    let bigrams := bigramsOf tokens
    let fs := firstSeen tokens bigrams
    let sorted := sortLE (candLE fs) (uniCands tokens ++ biCands bigrams)
    dedupLoop maxK sorted [] []

/-- Modelled from the spec for claim C5: the claim's reference definition of
the frequency strategy — unigram and bigram candidates combined, sorted by
`(-score, first-seen index)`, deduplicated by token keeping the first
occurrence, truncated to `max_keywords`.  Candidate assembly enumerates each
category's distinct tokens in first-occurrence order (the claim fixes no
pre-sort order; the sort key decides the order). -/
def reference_rank (text : Tok) (maxK : Nat) : List Cand :=
  let tokens := normalise text
  let bigrams := bigramsOf tokens
  let fs := firstSeen tokens bigrams
  let uni := (uniqKeys tokens).map (fun t => ⟨t, (tokens.count t : ℚ), SYNONYMS t⟩)
  let bi := ((uniqKeys bigrams).filter okBigram).map
    (fun t => (⟨t, (bigrams.count t : ℚ) + 1/2, []⟩ : Cand))
  (dedupBy (sortLE (candLE fs) (uni ++ bi)) []).take maxK

/-! ### The OpenAI extraction path (`extract_keywords_openai`)

`extract_keywords_openai` and `extract_keywords` are mutually recursive in
the source: every fallback branch calls `extract_keywords(text,
max_keywords=...)`, whose `use_openai` parameter defaults to `True`, which
immediately re-enters `extract_keywords_openai`.  The pair is modelled with
explicit fuel (one unit per Python stack frame); `none` models the run that
exhausts every frame (Python's `RecursionError`).  The service interaction
is an oracle: `noClient` is "no API key or the openai package is missing",
`transportError` is an exception raised by the API call, `malformed` is a
response whose JSON extraction raises, and `parsed items` is a structurally
valid response (keyword, synonyms, importance per item).  The oracle is
fixed for a run, modelling a persistent condition such as an unset key or a
service outage. -/

/-- Outcome of one OpenAI chat-completion attempt, as seen by
`extract_keywords_openai`. -/
inductive OpenAIResp where
  | noClient
  | transportError
  | malformed
  | parsed (items : List (Tok × List Tok × ℚ))
deriving DecidableEq

/-- The candidate-building loop over parsed items: lower/strip the keyword,
drop empties and stop words, lower/strip the synonyms, scale importance by
10. -/
def itemsToCands (items : List (Tok × List Tok × ℚ)) : List Cand :=
  items.foldr
    (fun it acc =>
      let kw := pyStrip (pyLower it.1)
      if kw ≠ [] ∧ ¬ STOPWORDS.contains kw then
        ⟨kw, it.2.2 * 10, it.2.1.map (fun s => pyStrip (pyLower s))⟩ :: acc
      else acc)
    []

mutual

/-- `extract_keywords_openai(text, max_keywords=maxK)` with `fuel` Python
stack frames available; `none` models `RecursionError`. -/
def extract_keywords_openaiF (resp : OpenAIResp) (text : Tok) (maxK : Nat) :
    Nat → Option (List Cand)
  | 0 => none
  | fuel + 1 =>
    match resp with
    | .noClient => extract_keywordsF resp text maxK true fuel
    | .transportError => extract_keywordsF resp text maxK true fuel
    | .malformed => extract_keywordsF resp text maxK true fuel
    | .parsed items => some ((itemsToCands items).take maxK)

/-- `extract_keywords(text, max_keywords=maxK, use_openai=useOpenai)` with
`fuel` Python stack frames available. -/
def extract_keywordsF (resp : OpenAIResp) (text : Tok) (maxK : Nat)
    (useOpenai : Bool) : Nat → Option (List Cand)
  | 0 => none
  | fuel + 1 =>
    if useOpenai then extract_keywords_openaiF resp text maxK fuel
    else some (extract_keywords_basic text maxK)

end

/-! ### `src/ats/scorer.py` -/

/-- Round half to even to the nearest integer (Python's `round` on exact
values; floats are modelled as exact rationals throughout). -/
def roundHalfEven (q : ℚ) : ℤ :=
  if q - ⌊q⌋ < 1/2 then ⌊q⌋
  else if 1/2 < q - ⌊q⌋ then ⌊q⌋ + 1
  else if ⌊q⌋ % 2 = 0 then ⌊q⌋ else ⌊q⌋ + 1

/-- Python `round(q, 2)` on the exact-rational model. -/
def round2 (q : ℚ) : ℚ := (roundHalfEven (q * 100) : ℚ) / 100

/-- `ScoreBreakdown` of `scorer.py` (the `details` field only reformats the
four sub-scores as strings for reporting and is not modelled). -/
structure ScoreBreakdown where
  coverage : ℚ
  sectionScore : ℚ
  quality : ℚ
  distribution : ℚ
  total : ℚ
deriving DecidableEq

/-- One keyword's match test inside `_coverage_score`: the token is a
substring of the lowered resume text, or any synonym (curated table united
with the candidate's own list; only membership of the union is ever used,
so list concatenation models the Python set union) is. -/
def matchedB (lowText : Tok) (c : Cand) : Bool :=
  hasSub lowText c.token ||
    (SYNONYMS c.token ++ c.synonyms).any (fun syn => hasSub lowText syn)

/-- The `matched` tally of `_coverage_score`. -/
def matchedCount (resume_text : Tok) (keywords : List Cand) : Nat :=
  (keywords.filter (matchedB (pyLower resume_text))).length

/-- `ATSScorer._coverage_score`. -/
def coverage_score (resume_text : Tok) (keywords : List Cand) : ℚ :=
  if keywords.isEmpty then 100
  else round2 (min ((matchedCount resume_text keywords : ℚ) / keywords.length) 1 * 100)

/-- `ATSScorer._section_score` (with the scorer's `max_pages`
configuration). -/
def section_score (sections_present : List Tok) (page_estimate : ℤ)
    (max_pages : ℤ) : ℚ :=
  let missing :=
    (REQUIRED_SECTIONS.filter
      (fun r => !sections_present.any (fun s => pyLower s = r))).length
  let score1 : ℚ := 100 - missing * 20
  let score2 : ℚ := if max_pages < page_estimate then score1 - 20 else score1
  round2 (max score2 0)

/-- One bullet's "starts with an action verb" test in `_quality_score`. -/
def verbHit (bullet : Tok) : Bool :=
  match pySplit (pyLower bullet) with
  | [] => false
  | w :: _ => ACTION_VERBS.contains w

/-- One bullet's length penalty test in `_quality_score`. -/
def lenPenalty (bullet : Tok) : Bool :=
  bullet.length < 35 || 220 < bullet.length

/-- One bullet's mixed-tense test in `_quality_score`: some word ends in
"ed" and some of the first five words ends in "ing". -/
def tensePenalty (bullet : Tok) : Bool :=
  let words := pySplit (pyLower bullet)
  (words.any (fun w => "ed".data.isSuffixOf w)) &&
    ((words.take 5).any (fun w => "ing".data.isSuffixOf w))

/-- `ATSScorer._quality_score`. -/
def quality_score (bullet_texts : List Tok) : ℚ :=
  if bullet_texts.isEmpty then 50
  else
    let verb_hits := (bullet_texts.filter verbHit).length
    let lenPens := (bullet_texts.filter lenPenalty).length
    let tensePens := (bullet_texts.filter tensePenalty).length
    let score : ℚ :=
      60 + (verb_hits : ℚ) / bullet_texts.length * 30 - lenPens * 4 - tensePens * 4
    round2 (max score 0)

/-- The `counts[keyword]` total of `_distribution_score`: occurrences of
`t` summed over all lowered bullets, times the multiplicity of `t` in the
keyword-token list (the source iterates the token list with duplicates,
accumulating into one `Counter` key). -/
def gCount (bullet_texts : List Tok) (tokens : List Tok) (t : Tok) : Nat :=
  tokens.count t * (bullet_texts.map (fun b => countSub (pyLower b) t)).sum

/-- One bullet's `bullet_counter[t]` in `_distribution_score`. -/
def bCount (tokens : List Tok) (bullet : Tok) (t : Tok) : Nat :=
  tokens.count t * countSub (pyLower bullet) t

/-- `ATSScorer._distribution_score`. -/
def distribution_score (bullet_texts : List Tok) (keywords : List Cand) : ℚ :=
  let tokens := keywords.map Cand.token
  if tokens.isEmpty then 100
  else
    let overuse : Nat :=
      ((uniqKeys tokens).map (fun t =>
        let c := gCount bullet_texts tokens t
        if 2 < c then (c - 2) * 5 else 0)).sum
    let clustering : Nat :=
      (bullet_texts.map (fun b =>
        ((uniqKeys tokens).map (fun t =>
          let c := bCount tokens b t
          if 1 < c then (c - 1) * 5 else 0)).sum)).sum
    let unique_coverage :=
      (tokens.filter (fun t => 0 < gCount bullet_texts tokens t)).length
    let base : ℚ := 70 + (unique_coverage : ℚ) / tokens.length * 30
    let score : ℚ := max (base - (overuse + clustering : Nat)) 0
    round2 (min score 100)

/-- `ATSScorer.score`. -/
def score (resume_text : Tok) (bullet_texts : List Tok)
    (keywords : List Cand) (sections_present : List Tok)
    (page_estimate max_pages : ℤ) : ScoreBreakdown :=
  let coverage := coverage_score resume_text keywords
  let sectionV := section_score sections_present page_estimate max_pages
  let quality := quality_score bullet_texts
  let distribution := distribution_score bullet_texts keywords
  { coverage := coverage
    sectionScore := sectionV
    quality := quality
    distribution := distribution
    total := round2 (coverage * (2/5) + sectionV * (1/5) + quality * (1/5) +
      distribution * (1/5)) }

/-! ### `src/latex/ast_parser.py` -/

/-- `Bullet` of `ast_parser.py`. -/
structure Bullet where
  line_index : Nat
  leading : Tok
  content : Tok
deriving DecidableEq, Repr

/-- `Document` of `ast_parser.py` (`sections` keeps the lowered, stripped
name with its line index). -/
structure Document where
  lines : List Tok
  bullets : List Bullet
  sections : List (Tok × Nat)
deriving DecidableEq

/-- `SECTION_PATTERN.search` / `SUBSECTION_PATTERN.search`: the pattern
`\section{[^}]*}` matches iff some occurrence of the literal head (`pat`)
is followed by a later `'}'`; a `'}'` after a later occurrence is also
after the first, so searching from the first occurrence decides it.
Returns the matched `name` group. -/
def searchBraced (pat : Tok) (line : Tok) : Option Tok :=
  match findSub line pat with
  | none => none
  | some i =>
    let rest := line.drop (i + pat.length)
    if rest.contains '}' then some (rest.takeWhile (fun c => c ≠ '}')) else none

/-- `ITEM_PATTERN.match`: optional leading whitespace, the literal `\item`,
an optional `[...]` block (skipped only when closed), optional whitespace,
then the content capture.  Returns `(leading, content)`. -/
def matchItem (line : Tok) : Option (Tok × Tok) :=
  let lead := line.takeWhile Char.isWhitespace
  let rest := line.drop lead.length
  if "\\item".data.isPrefixOf rest then
    let r1 := rest.drop 5
    let r2 :=
      match r1 with
      | '[' :: more => if more.contains ']' then
          (more.dropWhile (fun c => c ≠ ']')).drop 1
        else r1
      | _ => r1
    some (lead, r2.dropWhile Char.isWhitespace)
  else none

/-- The line scan of `parse_document` (index-carrying recursion over the
split lines; section and subsection matches shadow the item match, as the
`continue` statements do). -/
def scanLines : List Tok → Nat → List Bullet × List (Tok × Nat)
  | [], _ => ([], [])
  | l :: rest, idx =>
    let (bs, ss) := scanLines rest (idx + 1)
    match searchBraced "\\section\x7b".data l with
    | some name => (bs, (pyLower (pyStrip name), idx) :: ss)
    | none =>
      match searchBraced "\\subsection\x7b".data l with
      | some name => (bs, (pyLower (pyStrip name), idx) :: ss)
      | none =>
        match matchItem l with
        | some (lead, content) => (⟨idx, lead, pyStrip content⟩ :: bs, ss)
        | none => (bs, ss)

/-- `parse_document` of `ast_parser.py`. -/
def parse_document (text : Tok) : Document :=
  let lines := splitlines text
  let (bs, ss) := scanLines lines 0
  ⟨lines, bs, ss⟩

/-- `Document.render`. -/
def render (lines : List Tok) : Tok := joinNL lines

example : parse_document "x\n  \\item Led teams \n\\section\x7b Skills \x7d".data =
    ⟨["x".data, "  \\item Led teams ".data, "\\section\x7b Skills \x7d".data],
     [⟨1, "  ".data, "Led teams".data⟩], [("skills".data, 2)]⟩ := by decide

/-! ### `src/latex/rewriter.py` -/

/-- A `collections.Counter` (total function, `0` for missing keys). -/
abbrev Counter := Tok → Nat

/-- Pointwise `Counter` increment (`cnt[k] += n`). -/
def bump (f : Counter) (k : Tok) (n : Nat) : Counter :=
  fun t => if t = k then f t + n else f t

/-- The all-zero `Counter`. -/
def zeroC : Counter := fun _ => 0

/-- `_replace_synonym` of `rewriter.py`: find the synonym in the lowered
text, refuse the match when a backslash lies within two characters of it,
otherwise splice the keyword over the synonym's span in the original
text. -/
def replace_synonym (text syn keyword : Tok) : Tok × Bool :=
  match findSub (pyLower text) syn with
  | none => (text, false)
  | some idx =>
    let window := (text.drop (idx - 2)).take (idx + syn.length + 2 - (idx - 2))
    if window.contains '\\' then (text, false)
    else (text.take idx ++ keyword ++ text.drop (idx + syn.length), true)

example : replace_synonym "Led pandas tooling".data "pandas".data "python".data =
    ("Led python tooling".data, true) := by decide
example : replace_synonym "uses \\pandas now".data "pandas".data "python".data =
    ("uses \\pandas now".data, false) := by decide

/-- `_optimize_bullet_openai` of `rewriter.py`.  `resp` is the raw message
content the service returned for this bullet; `none` collapses the
source's "no client", "exception raised" and "content is None" branches,
each of which returns the original content.  A stripped-empty response
returns the original; under `strict` a response whose length moved more
than 10 characters from the original returns the original. -/
def optimize_bullet_openai (resp : Option Tok) (strict : Bool)
    (bullet_content : Tok) : Tok :=
  match resp with
  | none => bullet_content
  | some raw =>
    let rewritten := pyStrip raw
    if rewritten.isEmpty then bullet_content
    else if strict ∧ 10 < natDist rewritten.length bullet_content.length then
      bullet_content
    else rewritten

/-- The synonym union `SYNONYMS.get(token, set()) | set(candidate.synonyms)`
iterated by the rewriter (membership-faithful; the enumeration order of the
Python set is unspecified, this model fixes curated-then-candidate order
with first occurrences kept). -/
def synUnion (c : Cand) : List Tok := uniqKeys (SYNONYMS c.token ++ c.synonyms)

/-- The inner `for synonym in synonyms` loop: accept the first successful
substitution, except that under `strict` a substitution moving the length
more than 10 characters from the bullet's original content is skipped. -/
def try_synonyms (strict : Bool) (original keyword : Tok) (updated : Tok) :
    List Tok → Option Tok
  | [] => none
  | syn :: rest =>
    let (new_text, success) := replace_synonym updated syn keyword
    if success then
      if strict ∧ 10 < natDist new_text.length original.length then
        try_synonyms strict original keyword updated rest
      else some new_text
    else try_synonyms strict original keyword updated rest

/-- The per-bullet loop state of `optimize_resume`: the bullet text being
edited, the cross-bullet usage ledger, the per-bullet `Counter`, and three
ghost counters (`inserted` counts synonym substitutions and parenthetical
appends; `recorded` counts ledger increments that copy occurrence counts —
the already-present branch and the OpenAI branch; `appends` counts
parenthetical appends).  The ghosts never feed back into the text. -/
structure KwState where
  updated : Tok
  usage : Counter
  perB : Counter
  inserted : Counter
  recorded : Counter
  appends : Nat

/-- One iteration of `for candidate in keywords` inside `optimize_resume`
(the fallback, non-OpenAI path). -/
def keyword_step (strict : Bool) (original : Tok) (st : KwState) (c : Cand) :
    KwState :=
  if 2 ≤ st.usage c.token then st
  else if 1 ≤ st.perB c.token then
    { st with usage := bump st.usage c.token (st.perB c.token),
              recorded := bump st.recorded c.token (st.perB c.token) }
  else
    match try_synonyms strict original c.token st.updated (synUnion c) with
    | some new_text =>
      { st with updated := new_text,
                usage := bump st.usage c.token 1,
                perB := bump st.perB c.token 1,
                inserted := bump st.inserted c.token 1 }
    | none =>
      if ¬ strict ∧ st.usage c.token < 2 then
        { st with updated := st.updated ++ ' ' :: '(' :: (c.token ++ [')']),
                  usage := bump st.usage c.token 1,
                  perB := bump st.perB c.token 1,
                  inserted := bump st.inserted c.token 1,
                  appends := st.appends + 1 }
      else st

/-- The cross-bullet state of `optimize_resume`. -/
structure RunState where
  lines : List Tok
  bullets : List Bullet
  usage : Counter
  inserted : Counter
  recorded : Counter
  appends : Nat

/-- The per-bullet accumulator handed from one bullet to the next, plus the
bullet this iteration produced. -/
structure StepOut where
  lines : List Tok
  bullet : Bullet
  usage : Counter
  inserted : Counter
  recorded : Counter
  appends : Nat

/-- The OpenAI-branch ledger update of `optimize_resume`: for every
candidate, add the keyword's occurrence count in the rewritten bullet. -/
def bumpAll (keywords : List Cand) (txt : Tok) (u : Counter) : Counter :=
  keywords.foldl (fun u c => bump u c.token (countSub (pyLower txt) c.token)) u

/-- One iteration of `for idx, bullet in enumerate(document.bullets)`:
try the OpenAI rewrite first (when enabled), otherwise run the keyword
loop, apply the strict length rollback, and replace the bullet when its
content changed (replacement rebuilds the line as
`leading + "\item " + content`, as `Document.replace_bullet` does). -/
def bullet_step (ai : Nat → Option Tok) (use_openai strict : Bool)
    (keywords : List Cand) (idx : Nat) (b : Bullet)
    (lines : List Tok) (usage inserted recorded : Counter) (appends : Nat) :
    StepOut :=
  let original := b.content
  let ai_optimized :=
    if use_openai then optimize_bullet_openai (ai idx) strict original
    else original
  if ai_optimized ≠ original then
    ⟨lines.set b.line_index (b.leading ++ "\\item ".data ++ ai_optimized),
     ⟨b.line_index, b.leading, ai_optimized⟩,
     bumpAll keywords ai_optimized usage, inserted,
     bumpAll keywords ai_optimized recorded, appends⟩
  else
    let st0 : KwState :=
      ⟨original, usage, fun t => countSub (pyLower original) t, inserted,
       recorded, appends⟩
    let st := keywords.foldl (keyword_step strict original) st0
    let updated :=
      if strict ∧ 10 < natDist st.updated.length original.length then original
      else st.updated
    if updated ≠ original then
      ⟨lines.set b.line_index (b.leading ++ "\\item ".data ++ updated),
       ⟨b.line_index, b.leading, updated⟩, st.usage, st.inserted, st.recorded,
       st.appends⟩
    else ⟨lines, b, st.usage, st.inserted, st.recorded, st.appends⟩

/-- The bullet loop of `optimize_resume` (iterating the parsed bullet list;
`replace_bullet` only ever rewrites the entry being visited, so iterating
the original list is the source's in-place iteration). -/
def run_bullets (ai : Nat → Option Tok) (use_openai strict : Bool)
    (keywords : List Cand) : List Bullet → Nat → List Tok → Counter →
    Counter → Counter → Nat → RunState
  | [], _, lines, usage, inserted, recorded, appends =>
    ⟨lines, [], usage, inserted, recorded, appends⟩
  | b :: rest, idx, lines, usage, inserted, recorded, appends =>
    let so := bullet_step ai use_openai strict keywords idx b lines usage
      inserted recorded appends
    let res := run_bullets ai use_openai strict keywords rest (idx + 1) so.lines
      so.usage so.inserted so.recorded so.appends
    { res with bullets := so.bullet :: res.bullets }

/-- The full state after `optimize_resume`'s bullet loop. -/
def optimize_resume_run (ai : Nat → Option Tok) (use_openai strict : Bool)
    (tex_content : Tok) (keywords : List Cand) : RunState :=
  let document := parse_document tex_content
  run_bullets ai use_openai strict keywords document.bullets 0 document.lines
    zeroC zeroC zeroC 0

/-- `RewriteResult` of `rewriter.py` (`keyword_map` keeps one
`(token, before, after)` entry per candidate, in order; `diff` is a
human-readable unified diff for reporting and is not modelled). -/
structure RewriteResult where
  optimized_tex : Tok
  keyword_map : List (Tok × Nat × Nat)
deriving DecidableEq

/-- `optimize_resume` of `rewriter.py`, with the per-bullet OpenAI response
oracle `ai`. -/
def optimize_resume (ai : Nat → Option Tok) (use_openai strict : Bool)
    (tex_content : Tok) (keywords : List Cand) : RewriteResult :=
  let rs := optimize_resume_run ai use_openai strict tex_content keywords
  let optimized_tex := render rs.lines
  { optimized_tex := optimized_tex
    keyword_map := keywords.map (fun c =>
      (c.token, countSub (pyLower tex_content) c.token,
       countSub (pyLower optimized_tex) c.token)) }

/-! ### Rounding lemmas -/

theorem floor_le_roundHalfEven (q : ℚ) : ⌊q⌋ ≤ roundHalfEven q := by
  unfold roundHalfEven
  split_ifs <;> omega

theorem roundHalfEven_le_floor_add_one (q : ℚ) : roundHalfEven q ≤ ⌊q⌋ + 1 := by
  unfold roundHalfEven
  split_ifs <;> omega

theorem le_roundHalfEven (m : ℤ) (q : ℚ) (h : (m : ℚ) ≤ q) :
    m ≤ roundHalfEven q := by
  have hf : m ≤ ⌊q⌋ := Int.le_floor.mpr h
  have := floor_le_roundHalfEven q
  omega

theorem roundHalfEven_le (m : ℤ) (q : ℚ) (h : q ≤ (m : ℚ)) :
    roundHalfEven q ≤ m := by
  have hf : ⌊q⌋ ≤ m := by
    have h2 := Int.floor_mono h
    rwa [Int.floor_intCast] at h2
  unfold roundHalfEven
  split_ifs with h1 h2 h3
  · exact hf
  · have hq : (⌊q⌋ : ℚ) < q := by linarith
    have : ⌊q⌋ < m := by exact_mod_cast lt_of_lt_of_le hq h
    omega
  · exact hf
  · have hq : (⌊q⌋ : ℚ) < q := by linarith
    have : ⌊q⌋ < m := by exact_mod_cast lt_of_lt_of_le hq h
    omega

theorem roundHalfEven_mono {q r : ℚ} (h : q ≤ r) :
    roundHalfEven q ≤ roundHalfEven r := by
  have hfl : ⌊q⌋ ≤ ⌊r⌋ := Int.floor_mono h
  rcases eq_or_lt_of_le hfl with heq | hlt
  · have hq := Int.floor_le q
    have hr := Int.floor_le r
    unfold roundHalfEven
    rw [← heq]
    have hle : q - ⌊q⌋ ≤ r - ⌊q⌋ := by linarith
    split_ifs <;> first | omega | (exfalso; rw [← heq] at *; linarith)
  · calc roundHalfEven q ≤ ⌊q⌋ + 1 := roundHalfEven_le_floor_add_one q
      _ ≤ ⌊r⌋ := hlt
      _ ≤ roundHalfEven r := floor_le_roundHalfEven r

theorem roundHalfEven_intCast (m : ℤ) : roundHalfEven (m : ℚ) = m := by
  unfold roundHalfEven
  rw [Int.floor_intCast]
  norm_num

theorem round2_nonneg {q : ℚ} (h : 0 ≤ q) : 0 ≤ round2 q := by
  have h1 : (0 : ℤ) ≤ roundHalfEven (q * 100) :=
    le_roundHalfEven 0 _ (by push_cast; linarith)
  unfold round2
  positivity

theorem round2_le_100 {q : ℚ} (h : q ≤ 100) : round2 q ≤ 100 := by
  have h1 : roundHalfEven (q * 100) ≤ 10000 :=
    roundHalfEven_le 10000 _ (by push_cast; linarith)
  have h2 : ((roundHalfEven (q * 100) : ℚ)) ≤ 10000 := by exact_mod_cast h1
  unfold round2
  linarith

theorem round2_mono {q r : ℚ} (h : q ≤ r) : round2 q ≤ round2 r := by
  have h1 : roundHalfEven (q * 100) ≤ roundHalfEven (r * 100) :=
    roundHalfEven_mono (by linarith)
  have h2 : ((roundHalfEven (q * 100) : ℚ)) ≤ (roundHalfEven (r * 100) : ℚ) := by
    exact_mod_cast h1
  unfold round2
  linarith

theorem round2_100 : round2 100 = 100 := by
  have h : (100 : ℚ) * 100 = ((10000 : ℤ) : ℚ) := by norm_num
  unfold round2
  rw [h, roundHalfEven_intCast]
  norm_num

/-! ### Bounds of the four metrics -/

theorem coverage_score_nonneg (resume_text : Tok) (keywords : List Cand) :
    0 ≤ coverage_score resume_text keywords := by
  unfold coverage_score
  split_ifs
  · norm_num
  · apply round2_nonneg
    have h0 : (0:ℚ) ≤ (matchedCount resume_text keywords : ℚ) / keywords.length := by
      positivity
    have := le_min h0 (zero_le_one (α := ℚ))
    nlinarith [min_le_right ((matchedCount resume_text keywords : ℚ) / keywords.length) (1:ℚ)]

theorem coverage_score_le_100 (resume_text : Tok) (keywords : List Cand) :
    coverage_score resume_text keywords ≤ 100 := by
  unfold coverage_score
  split_ifs
  · norm_num
  · apply round2_le_100
    have h1 := min_le_right ((matchedCount resume_text keywords : ℚ) / keywords.length) (1:ℚ)
    have h0 : (0:ℚ) ≤ (matchedCount resume_text keywords : ℚ) / keywords.length := by
      positivity
    have h2 := le_min h0 (zero_le_one (α := ℚ))
    nlinarith

theorem section_score_nonneg (sections_present : List Tok)
    (page_estimate max_pages : ℤ) :
    0 ≤ section_score sections_present page_estimate max_pages := by
  unfold section_score
  exact round2_nonneg (le_max_right _ _)

theorem section_score_le_100 (sections_present : List Tok)
    (page_estimate max_pages : ℤ) :
    section_score sections_present page_estimate max_pages ≤ 100 := by
  unfold section_score
  apply round2_le_100
  apply max_le _ (by norm_num)
  have h0 : (0:ℚ) ≤ ((REQUIRED_SECTIONS.filter
      (fun r => !sections_present.any (fun s => pyLower s = r))).length : ℚ) := by
    positivity
  split_ifs <;> linarith

theorem quality_score_nonneg (bullet_texts : List Tok) :
    0 ≤ quality_score bullet_texts := by
  unfold quality_score
  split_ifs
  · norm_num
  · exact round2_nonneg (le_max_right _ _)

theorem quality_score_le_100 (bullet_texts : List Tok) :
    quality_score bullet_texts ≤ 100 := by
  unfold quality_score
  split_ifs with h
  · norm_num
  · apply round2_le_100
    apply max_le _ (by norm_num)
    have hn : 0 < bullet_texts.length := by
      cases bullet_texts with
      | nil => simp at h
      | cons a l => simp
    have hhits : (bullet_texts.filter verbHit).length ≤ bullet_texts.length :=
      List.length_filter_le _ _
    have hvr : ((bullet_texts.filter verbHit).length : ℚ) / bullet_texts.length ≤ 1 := by
      rw [div_le_one (by exact_mod_cast hn)]
      exact_mod_cast hhits
    have hl : (0:ℚ) ≤ ((bullet_texts.filter lenPenalty).length : ℚ) := by positivity
    have ht : (0:ℚ) ≤ ((bullet_texts.filter tensePenalty).length : ℚ) := by positivity
    linarith

theorem distribution_score_nonneg (bullet_texts : List Tok)
    (keywords : List Cand) :
    0 ≤ distribution_score bullet_texts keywords := by
  simp only [distribution_score]
  split_ifs
  · norm_num
  · apply round2_nonneg
    exact le_min (le_max_right _ _) (by norm_num)

theorem distribution_score_le_100 (bullet_texts : List Tok)
    (keywords : List Cand) :
    distribution_score bullet_texts keywords ≤ 100 := by
  simp only [distribution_score]
  split_ifs
  · norm_num
  · exact round2_le_100 (min_le_right _ _)

/-- C3: for every well-typed input to `score()`, each of the four
sub-scores (coverage, section, quality, distribution) lies in `[0, 100]`,
and the returned total equals
`0.4*coverage + 0.2*section + 0.2*quality + 0.2*distribution` rounded to
two decimal places. -/
theorem C3_score_bounds_and_total (resume_text : Tok) (bullet_texts : List Tok)
    (keywords : List Cand) (sections_present : List Tok)
    (page_estimate max_pages : ℤ) :
    (0 ≤ (score resume_text bullet_texts keywords sections_present page_estimate
        max_pages).coverage ∧
      (score resume_text bullet_texts keywords sections_present page_estimate
        max_pages).coverage ≤ 100) ∧
    (0 ≤ (score resume_text bullet_texts keywords sections_present page_estimate
        max_pages).sectionScore ∧
      (score resume_text bullet_texts keywords sections_present page_estimate
        max_pages).sectionScore ≤ 100) ∧
    (0 ≤ (score resume_text bullet_texts keywords sections_present page_estimate
        max_pages).quality ∧
      (score resume_text bullet_texts keywords sections_present page_estimate
        max_pages).quality ≤ 100) ∧
    (0 ≤ (score resume_text bullet_texts keywords sections_present page_estimate
        max_pages).distribution ∧
      (score resume_text bullet_texts keywords sections_present page_estimate
        max_pages).distribution ≤ 100) ∧
    (score resume_text bullet_texts keywords sections_present page_estimate
        max_pages).total =
      round2 ((score resume_text bullet_texts keywords sections_present
          page_estimate max_pages).coverage * (2/5) +
        (score resume_text bullet_texts keywords sections_present page_estimate
          max_pages).sectionScore * (1/5) +
        (score resume_text bullet_texts keywords sections_present page_estimate
          max_pages).quality * (1/5) +
        (score resume_text bullet_texts keywords sections_present page_estimate
          max_pages).distribution * (1/5)) :=
  ⟨⟨coverage_score_nonneg _ _, coverage_score_le_100 _ _⟩,
   ⟨section_score_nonneg _ _ _, section_score_le_100 _ _ _⟩,
   ⟨quality_score_nonneg _, quality_score_le_100 _⟩,
   ⟨distribution_score_nonneg _ _, distribution_score_le_100 _ _⟩,
   rfl⟩

/-! ### Claim C4: the coverage formula -/

/-- Modelled from the spec for claim C4: the spec's coverage formula
`100 × min(matched/total, 1)` (same matched-count definition as the code),
with no rounding; an empty keyword list gives 100. -/
def coverage_spec (resume_text : Tok) (keywords : List Cand) : ℚ :=
  if keywords.isEmpty then 100
  else 100 * min ((matchedCount resume_text keywords : ℚ) / keywords.length) 1

/-- C4 counterexample: with three keywords of which exactly one matches,
the code's coverage is `33.33` (rounded to two decimals) while the spec's
formula gives `100/3`; the claim's unrounded equality fails. -/
theorem C4_counterexample :
    coverage_score "python".data
        [⟨"python".data, 1, []⟩, ⟨"qqq".data, 1, []⟩, ⟨"rrr".data, 1, []⟩] ≠
      coverage_spec "python".data
        [⟨"python".data, 1, []⟩, ⟨"qqq".data, 1, []⟩, ⟨"rrr".data, 1, []⟩] :=
  of_decide_eq_true (by with_unfolding_all rfl)

/-- C4 amended: the coverage sub-score equals the spec's formula
`100 × min(matched/total, 1)` rounded to two decimal places (a keyword
counting as matched exactly when its token, or any synonym from the curated
table united with its own list, is a substring of the lowered resume text);
an empty keyword list gives 100. -/
theorem C4_coverage_eq_round2_spec (resume_text : Tok) (keywords : List Cand) :
    coverage_score resume_text keywords =
      round2 (coverage_spec resume_text keywords) := by
  unfold coverage_score coverage_spec
  split_ifs
  · exact round2_100.symm
  · exact congrArg round2 (mul_comm _ _)

/-! ### Claim C6: coverage monotonicity -/

theorem isPrefixOf_append {l t : Tok} (s : Tok) (h : l.isPrefixOf t = true) :
    l.isPrefixOf (t ++ s) = true := by
  induction l generalizing t with
  | nil => simp [List.isPrefixOf]
  | cons a as ih =>
    cases t with
    | nil => simp [List.isPrefixOf] at h
    | cons b bs =>
      simp only [List.isPrefixOf, Bool.and_eq_true, beq_iff_eq] at h
      simp only [List.cons_append, List.isPrefixOf, Bool.and_eq_true, beq_iff_eq]
      exact ⟨h.1, ih h.2⟩

theorem hasSub_append {t sub : Tok} (s : Tok) (h : hasSub t sub = true) :
    hasSub (t ++ s) sub = true := by
  induction t with
  | nil =>
    have hsub : sub = [] := by
      cases sub with
      | nil => rfl
      | cons a as => simp [hasSub, List.isPrefixOf] at h
    subst hsub
    simp only [List.nil_append]
    cases s <;> simp [hasSub, List.isPrefixOf]
  | cons c rest ih =>
    simp only [hasSub] at h
    by_cases hp : sub.isPrefixOf (c :: rest) = true
    · have h2 := isPrefixOf_append s hp
      rw [List.cons_append] at h2
      simp only [List.cons_append, hasSub]
      rw [if_pos h2]
    · rw [if_neg hp] at h
      simp only [List.cons_append, hasSub]
      split_ifs with h2
      · rfl
      · exact ih h

theorem matchedB_append (t s : Tok) (c : Cand)
    (h : matchedB (pyLower t) c = true) :
    matchedB (pyLower (t ++ s)) c = true := by
  have hl : pyLower (t ++ s) = pyLower t ++ pyLower s := by simp [pyLower]
  rw [hl]
  simp only [matchedB, Bool.or_eq_true, List.any_eq_true] at h ⊢
  rcases h with htok | ⟨syn, hmem, hsyn⟩
  · exact Or.inl (hasSub_append _ htok)
  · exact Or.inr ⟨syn, hmem, hasSub_append _ hsyn⟩

theorem matchedCount_append (t s : Tok) (ks : List Cand) :
    matchedCount t ks ≤ matchedCount (t ++ s) ks := by
  unfold matchedCount
  rw [← List.countP_eq_length_filter, ← List.countP_eq_length_filter]
  exact List.countP_mono_left (fun c _ h => matchedB_append t s c h)

theorem coverage_score_append (t s : Tok) (ks : List Cand) :
    coverage_score t ks ≤ coverage_score (t ++ s) ks := by
  unfold coverage_score
  split_ifs
  · exact le_refl _
  · apply round2_mono
    have hn : (0:ℚ) < ks.length := by
      cases ks with
      | nil => simp_all
      | cons a l => exact_mod_cast Nat.succ_pos l.length
    have hm : ((matchedCount t ks : ℚ)) ≤ (matchedCount (t ++ s) ks : ℚ) := by
      exact_mod_cast matchedCount_append t s ks
    have hdiv : (matchedCount t ks : ℚ) / ks.length ≤
        (matchedCount (t ++ s) ks : ℚ) / ks.length := by gcongr
    exact mul_le_mul_of_nonneg_right (min_le_min hdiv (le_refl 1)) (by norm_num)

/-- C6 counterexample: keywords `anda`, `nd`, `xq` against resume text
`"pandas"`; `xq` is unmatched and has no synonyms, yet inserting an
occurrence of `"xq"` mid-text (at position 3) destroys the only
occurrences of `anda` and `nd`, and coverage drops from 66.67 to 33.33. -/
theorem C6_counterexample :
    "pan".data ++ "das".data = "pandas".data ∧
    (⟨"xq".data, 1, []⟩ : Cand) ∈
      [(⟨"anda".data, 1, []⟩ : Cand), ⟨"nd".data, 1, []⟩, ⟨"xq".data, 1, []⟩] ∧
    matchedB (pyLower "pandas".data) ⟨"xq".data, 1, []⟩ = false ∧
    coverage_score ("pan".data ++ "xq".data ++ "das".data)
        [⟨"anda".data, 1, []⟩, ⟨"nd".data, 1, []⟩, ⟨"xq".data, 1, []⟩] <
      coverage_score "pandas".data
        [⟨"anda".data, 1, []⟩, ⟨"nd".data, 1, []⟩, ⟨"xq".data, 1, []⟩] :=
  of_decide_eq_true (by with_unfolding_all rfl)

/-- C6 amended: coverage is monotone under *appending* an occurrence of a
previously-unmatched keyword's token or synonym at the end of the resume
text (appending never destroys existing matches; insertion at an arbitrary
interior position can, see the counterexample). -/
theorem C6_coverage_append_monotone (t s : Tok) (ks : List Cand) (c : Cand)
    (hmem : c ∈ ks) (hunmatched : matchedB (pyLower t) c = false)
    (hs : s = c.token ∨ s ∈ SYNONYMS c.token ++ c.synonyms) :
    coverage_score t ks ≤ coverage_score (t ++ s) ks :=
  coverage_score_append t s ks

/-- C6 witness: the amended monotonicity applied at resume text `""`,
appended token `"sql"`, keyword list `[sql]`. -/
theorem C6_witness :
    coverage_score "".data [⟨"sql".data, 1, []⟩] ≤
      coverage_score ("".data ++ "sql".data) [⟨"sql".data, 1, []⟩] :=
  C6_coverage_append_monotone "".data "sql".data [⟨"sql".data, 1, []⟩]
    ⟨"sql".data, 1, []⟩ (by decide) (by decide) (Or.inl rfl)

/-! ### Claim C8: failure handling of the OpenAI ranking strategy -/

theorem extract_fuel_diverges (resp : OpenAIResp)
    (hresp : ∀ items, resp ≠ .parsed items) :
    ∀ (fuel : Nat) (text : Tok) (maxK : Nat),
      extract_keywords_openaiF resp text maxK fuel = none ∧
      extract_keywordsF resp text maxK true fuel = none := by
  intro fuel
  induction fuel with
  | zero => intro text maxK; exact ⟨rfl, rfl⟩
  | succ n ih =>
    intro text maxK
    refine ⟨?_, ?_⟩
    · cases resp with
      | noClient => exact (ih text maxK).2
      | transportError => exact (ih text maxK).2
      | malformed => exact (ih text maxK).2
      | parsed items => exact absurd rfl (hresp items)
    · simp only [extract_keywordsF, if_pos]
      exact (ih text maxK).1

/-- C8: on service failure the code never returns the frequency strategy's
result — every failing response (`noClient`: missing key or package,
`transportError`: the API call raises, `malformed`: JSON extraction
raises) sends `extract_keywords_openai` into the mutual recursion with
`extract_keywords` (whose `use_openai` defaults to `True`), which exhausts
any stack budget and ends in `RecursionError`; and a structurally valid
but empty response returns `[]` without falling back, while the frequency
strategy on the same text is nonempty. -/
theorem C8_failure_no_fallback :
    (∀ (fuel : Nat) (text : Tok) (maxK : Nat),
      extract_keywords_openaiF .noClient text maxK fuel = none) ∧
    (∀ (fuel : Nat) (text : Tok) (maxK : Nat),
      extract_keywords_openaiF .transportError text maxK fuel = none) ∧
    (∀ (fuel : Nat) (text : Tok) (maxK : Nat),
      extract_keywords_openaiF .malformed text maxK fuel = none) ∧
    (∀ (fuel : Nat) (text : Tok) (maxK : Nat),
      extract_keywords_openaiF (.parsed []) text maxK (fuel + 1) = some []) ∧
    extract_keywords_basic "python sql python".data 20 ≠ [] :=
  ⟨fun fuel text maxK => (extract_fuel_diverges .noClient (by intro _ h; cases h)
      fuel text maxK).1,
   fun fuel text maxK => (extract_fuel_diverges .transportError
      (by intro _ h; cases h) fuel text maxK).1,
   fun fuel text maxK => (extract_fuel_diverges .malformed (by intro _ h; cases h)
      fuel text maxK).1,
   fun _ _ _ => by simp [extract_keywords_openaiF, itemsToCands],
   of_decide_eq_true (by with_unfolding_all rfl)⟩

/-! ### Rewriter lemmas -/

theorem natDist_self (a : Nat) : natDist a a = 0 := by simp [natDist]

theorem bump_apply (u : Counter) (k : Tok) (n : Nat) (t : Tok) :
    bump u k n t = if t = k then u t + n else u t := rfl

theorem le_bump (u : Counter) (k : Tok) (n : Nat) (t : Tok) :
    u t ≤ bump u k n t := by
  rw [bump_apply]
  split_ifs <;> omega

theorem le_bumpAll (ks : List Cand) (txt : Tok) :
    ∀ (u : Counter) (t : Tok), u t ≤ bumpAll ks txt u t := by
  induction ks with
  | nil => intro u t; exact le_refl _
  | cons c rest ih =>
    intro u t
    calc u t ≤ bump u c.token (countSub (pyLower txt) c.token) t := le_bump _ _ _ _
      _ ≤ bumpAll rest txt (bump u c.token (countSub (pyLower txt) c.token)) t :=
        ih _ t
      _ = bumpAll (c :: rest) txt u t := rfl

theorem bumpAll_offset (ks : List Cand) (txt : Tok) :
    ∀ (u v d : Counter), (∀ t, u t = v t + d t) →
      ∀ t, bumpAll ks txt u t = bumpAll ks txt v t + d t := by
  induction ks with
  | nil => intro u v d h t; exact h t
  | cons c rest ih =>
    intro u v d h t
    refine ih _ _ d (fun t' => ?_) t
    have ht' := h t'
    simp only [bump_apply]
    split_ifs <;> omega

theorem optimize_bullet_openai_strict_len (resp : Option Tok) (orig : Tok) :
    natDist (optimize_bullet_openai resp true orig).length orig.length ≤ 10 := by
  cases resp with
  | none => simp only [optimize_bullet_openai]; rw [natDist_self]; omega
  | some raw =>
    simp only [optimize_bullet_openai, eq_self_iff_true, true_and]
    split_ifs with h1 h2
    · rw [natDist_self]; omega
    · rw [natDist_self]; omega
    · omega

/-- Under strict policy a keyword-loop step never touches `appends`
(the parenthetical-append branch is guarded by `not strict`). -/
theorem keyword_step_strict_appends (orig : Tok) (st : KwState) (c : Cand) :
    (keyword_step true orig st c).appends = st.appends := by
  unfold keyword_step
  by_cases hA : 2 ≤ st.usage c.token
  · rw [if_pos hA]
  rw [if_neg hA]
  by_cases hB : 1 ≤ st.perB c.token
  · rw [if_pos hB]
  rw [if_neg hB]
  cases h : try_synonyms true orig c.token st.updated (synUnion c) with
  | some t => simp [h]
  | none => simp [h]

theorem foldl_keyword_step_strict_appends (orig : Tok) (ks : List Cand) :
    ∀ st : KwState, (ks.foldl (keyword_step true orig) st).appends = st.appends := by
  induction ks with
  | nil => intro st; rfl
  | cons c rest ih =>
    intro st
    rw [List.foldl_cons, ih, keyword_step_strict_appends]

/-- Under strict policy one bullet step keeps the bullet's length within 10
characters of the original, never appends, and keeps position and leading
whitespace. -/
theorem bullet_step_strict (ai : Nat → Option Tok) (uo : Bool) (ks : List Cand)
    (idx : Nat) (b : Bullet) (lines : List Tok) (u i r : Counter) (a : Nat) :
    natDist (bullet_step ai uo true ks idx b lines u i r a).bullet.content.length
        b.content.length ≤ 10 ∧
    (bullet_step ai uo true ks idx b lines u i r a).appends = a := by
  have hA : (if uo = true then optimize_bullet_openai (ai idx) true b.content
      else b.content) = b.content ∨
      natDist (if uo = true then optimize_bullet_openai (ai idx) true b.content
        else b.content).length b.content.length ≤ 10 := by
    cases uo with
    | false => exact Or.inl rfl
    | true => exact Or.inr (optimize_bullet_openai_strict_len (ai idx) b.content)
  simp only [bullet_step, eq_self_iff_true, true_and, ne_eq]
  by_cases hai : (if uo = true then optimize_bullet_openai (ai idx) true b.content
      else b.content) = b.content
  · rw [if_neg (not_not_intro hai)]
    by_cases hlen : 10 < natDist (List.foldl (keyword_step true b.content)
        ⟨b.content, u, fun t => countSub (pyLower b.content) t, i, r, a⟩
        ks).updated.length b.content.length
    · rw [if_pos hlen]
      rw [if_neg (not_not_intro rfl)]
      exact ⟨by rw [natDist_self]; omega,
        foldl_keyword_step_strict_appends _ _ _⟩
    · rw [if_neg hlen]
      by_cases hne : (List.foldl (keyword_step true b.content)
          ⟨b.content, u, fun t => countSub (pyLower b.content) t, i, r, a⟩
          ks).updated = b.content
      · rw [if_neg (not_not_intro hne)]
        exact ⟨by rw [natDist_self]; omega,
          foldl_keyword_step_strict_appends _ _ _⟩
      · rw [if_pos hne]
        constructor
        · exact (by omega :
            natDist (List.foldl (keyword_step true b.content)
              ⟨b.content, u, fun t => countSub (pyLower b.content) t, i, r, a⟩
              ks).updated.length b.content.length ≤ 10)
        · exact foldl_keyword_step_strict_appends _ _ _
  · rw [if_pos hai]
    rcases hA with h | h
    · exact absurd h hai
    · exact ⟨h, rfl⟩

/-- Dummy bullet for positional access. -/
def dummyBullet : Bullet := ⟨0, [], []⟩

theorem run_bullets_strict (ai : Nat → Option Tok) (uo : Bool) (ks : List Cand) :
    ∀ (bs : List Bullet) (idx : Nat) (lines : List Tok) (u i r : Counter)
      (a : Nat),
      (run_bullets ai uo true ks bs idx lines u i r a).bullets.length =
        bs.length ∧
      (∀ n, n < bs.length →
        natDist ((run_bullets ai uo true ks bs idx lines u i r a).bullets.getD n
            dummyBullet).content.length
          ((bs.getD n dummyBullet).content.length) ≤ 10) ∧
      (run_bullets ai uo true ks bs idx lines u i r a).appends = a := by
  intro bs
  induction bs with
  | nil =>
    intro idx lines u i r a
    exact ⟨rfl, fun n hn => absurd hn (by simp), rfl⟩
  | cons b rest ih =>
    intro idx lines u i r a
    have hstep := bullet_step_strict ai uo ks idx b lines u i r a
    have ihr := ih (idx + 1)
      (bullet_step ai uo true ks idx b lines u i r a).lines
      (bullet_step ai uo true ks idx b lines u i r a).usage
      (bullet_step ai uo true ks idx b lines u i r a).inserted
      (bullet_step ai uo true ks idx b lines u i r a).recorded
      (bullet_step ai uo true ks idx b lines u i r a).appends
    refine ⟨?_, ?_, ?_⟩
    · show ((bullet_step ai uo true ks idx b lines u i r a).bullet ::
        (run_bullets ai uo true ks rest (idx + 1) _ _ _ _ _).bullets).length = _
      simp only [List.length_cons, List.length_cons]
      rw [ihr.1]
    · intro n hn
      cases n with
      | zero => exact hstep.1
      | succ m =>
        have hm : m < rest.length := by simpa using hn
        exact ihr.2.1 m hm
    · show (run_bullets ai uo true ks rest (idx + 1) _ _ _ _ _).appends = a
      rw [ihr.2.2, hstep.2]

/-- C1: for every input document, keyword list and OpenAI-response oracle,
rewriting with `strict = true` keeps every bullet's rewritten content
within 10 characters of that bullet's original content, and the
parenthetical-append fallback is never applied (the ghost `appends`
counter stays 0). -/
theorem C1_strict_length_budget (ai : Nat → Option Tok) (use_openai : Bool)
    (tex_content : Tok) (keywords : List Cand) :
    (∀ n, n < (parse_document tex_content).bullets.length →
      natDist
        (((optimize_resume_run ai use_openai true tex_content
            keywords).bullets.getD n dummyBullet).content.length)
        (((parse_document tex_content).bullets.getD n
            dummyBullet).content.length) ≤ 10) ∧
    (optimize_resume_run ai use_openai true tex_content keywords).appends = 0 := by
  have h := run_bullets_strict ai use_openai keywords
    (parse_document tex_content).bullets 0 (parse_document tex_content).lines
    zeroC zeroC zeroC 0
  exact ⟨h.2.1, h.2.2⟩

/-- C1 witness: the strict length budget at a concrete one-bullet document
with an empty keyword list, read off at bullet 0. -/
theorem C1_witness :
    natDist
      (((optimize_resume_run (fun _ => none) false true "\\item abc".data
          []).bullets.getD 0 dummyBullet).content.length)
      (((parse_document "\\item abc".data).bullets.getD 0
          dummyBullet).content.length) ≤ 10 :=
  (C1_strict_length_budget (fun _ => none) false "\\item abc".data []).1 0
    (by decide)

/-! ### Frame lemmas (claim C10) -/

theorem bullet_step_bullet_id (ai : Nat → Option Tok) (uo strict : Bool)
    (ks : List Cand) (idx : Nat) (b : Bullet) (lines : List Tok)
    (u i r : Counter) (a : Nat) :
    (bullet_step ai uo strict ks idx b lines u i r a).bullet.line_index =
      b.line_index ∧
    (bullet_step ai uo strict ks idx b lines u i r a).bullet.leading =
      b.leading := by
  simp only [bullet_step, ne_eq]
  split_ifs <;> exact ⟨rfl, rfl⟩

theorem bullet_step_lines_frame (ai : Nat → Option Tok) (uo strict : Bool)
    (ks : List Cand) (idx : Nat) (b : Bullet) (lines : List Tok)
    (u i r : Counter) (a : Nat) :
    (bullet_step ai uo strict ks idx b lines u i r a).lines.length =
      lines.length ∧
    ∀ j, j ≠ b.line_index →
      (bullet_step ai uo strict ks idx b lines u i r a).lines[j]? =
        lines[j]? := by
  simp only [bullet_step, ne_eq]
  split_ifs <;>
    refine ⟨?_, fun j hj => ?_⟩ <;>
    first
      | rfl
      | (exact List.length_set _ _ _)
      | (exact List.getElem?_set_ne (Ne.symm hj))

theorem run_bullets_frame (ai : Nat → Option Tok) (uo strict : Bool)
    (ks : List Cand) :
    ∀ (bs : List Bullet) (idx : Nat) (lines : List Tok) (u i r : Counter)
      (a : Nat),
      (run_bullets ai uo strict ks bs idx lines u i r a).lines.length =
        lines.length ∧
      (∀ j, j ∉ bs.map Bullet.line_index →
        (run_bullets ai uo strict ks bs idx lines u i r a).lines[j]? =
          lines[j]?) ∧
      (run_bullets ai uo strict ks bs idx lines u i r a).bullets.map
          (fun b => (b.line_index, b.leading)) =
        bs.map (fun b => (b.line_index, b.leading)) := by
  intro bs
  induction bs with
  | nil =>
    intro idx lines u i r a
    exact ⟨rfl, fun j _ => rfl, rfl⟩
  | cons b rest ih =>
    intro idx lines u i r a
    have hstep := bullet_step_lines_frame ai uo strict ks idx b lines u i r a
    have hid := bullet_step_bullet_id ai uo strict ks idx b lines u i r a
    have ihr := ih (idx + 1)
      (bullet_step ai uo strict ks idx b lines u i r a).lines
      (bullet_step ai uo strict ks idx b lines u i r a).usage
      (bullet_step ai uo strict ks idx b lines u i r a).inserted
      (bullet_step ai uo strict ks idx b lines u i r a).recorded
      (bullet_step ai uo strict ks idx b lines u i r a).appends
    refine ⟨?_, ?_, ?_⟩
    · show (run_bullets ai uo strict ks rest (idx + 1) _ _ _ _ _).lines.length = _
      rw [ihr.1, hstep.1]
    · intro j hj
      have hj1 : j ≠ b.line_index := by
        intro hc
        exact hj (by simp [hc])
      have hj2 : j ∉ rest.map Bullet.line_index := by
        intro hc
        exact hj (by simp [hc])
      show (run_bullets ai uo strict ks rest (idx + 1) _ _ _ _ _).lines[j]? = _
      rw [ihr.2.1 j hj2, hstep.2 j hj1]
    · show ((bullet_step ai uo strict ks idx b lines u i r a).bullet ::
        (run_bullets ai uo strict ks rest (idx + 1) _ _ _ _ _).bullets).map
          (fun b => (b.line_index, b.leading)) = _
      simp only [List.map_cons]
      rw [ihr.2.2, hid.1, hid.2]

/-- C10: for every rewrite run (any oracle, any flags), line count is
preserved, every non-bullet line of the parsed document is byte-identical
at its original position in the optimized line array, and every bullet
keeps its line position and leading whitespace; only bullet content is
ever modified. -/
theorem C10_only_bullets_touched (ai : Nat → Option Tok)
    (use_openai strict : Bool) (tex_content : Tok) (keywords : List Cand) :
    (optimize_resume_run ai use_openai strict tex_content
        keywords).lines.length = (parse_document tex_content).lines.length ∧
    (∀ j, j ∉ (parse_document tex_content).bullets.map Bullet.line_index →
      (optimize_resume_run ai use_openai strict tex_content
          keywords).lines[j]? = (parse_document tex_content).lines[j]?) ∧
    (optimize_resume_run ai use_openai strict tex_content keywords).bullets.map
        (fun b => (b.line_index, b.leading)) =
      (parse_document tex_content).bullets.map
        (fun b => (b.line_index, b.leading)) :=
  run_bullets_frame ai use_openai strict keywords
    (parse_document tex_content).bullets 0 (parse_document tex_content).lines
    zeroC zeroC zeroC 0

/-- C10 witness: the frame property read off at the non-bullet line 0 of a
concrete two-line document whose only bullet is line 1. -/
theorem C10_witness :
    (optimize_resume_run (fun _ => none) false false "header\n\\item a".data
        [⟨"qq".data, 1, []⟩]).lines[0]? =
      (parse_document "header\n\\item a".data).lines[0]? :=
  (C10_only_bullets_touched (fun _ => none) false false "header\n\\item a".data
    [⟨"qq".data, 1, []⟩]).2.1 0 (by decide)

/-! ### Ledger lemmas (claims C2 and C7) -/

/-- A keyword whose ledger count has reached 2 is skipped: the keyword-loop
step leaves the whole state unchanged (the source's first `continue`). -/
theorem keyword_step_skip (strict : Bool) (orig : Tok) (st : KwState)
    (c : Cand) (h : 2 ≤ st.usage c.token) :
    keyword_step strict orig st c = st := by
  unfold keyword_step
  rw [if_pos h]

/-- The four possible outcomes of one keyword-loop step: unchanged; record
the bullet's pre-existing occurrences into the ledger; insert by synonym
substitution; insert by parenthetical append.  Every non-skip outcome
starts from a ledger count below 2. -/
theorem keyword_step_shape (strict : Bool) (orig : Tok) (st : KwState)
    (c : Cand) :
    keyword_step strict orig st c = st ∨
    (¬ 2 ≤ st.usage c.token ∧
      (keyword_step strict orig st c =
        { st with usage := bump st.usage c.token (st.perB c.token),
                  recorded := bump st.recorded c.token (st.perB c.token) } ∨
       (∃ txt, keyword_step strict orig st c =
        { st with updated := txt,
                  usage := bump st.usage c.token 1,
                  perB := bump st.perB c.token 1,
                  inserted := bump st.inserted c.token 1 }) ∨
       keyword_step strict orig st c =
        { st with updated := st.updated ++ ' ' :: '(' :: (c.token ++ [')']),
                  usage := bump st.usage c.token 1,
                  perB := bump st.perB c.token 1,
                  inserted := bump st.inserted c.token 1,
                  appends := st.appends + 1 })) := by
  unfold keyword_step
  by_cases hA : 2 ≤ st.usage c.token
  · rw [if_pos hA]; exact Or.inl rfl
  rw [if_neg hA]
  by_cases hB : 1 ≤ st.perB c.token
  · rw [if_pos hB]; exact Or.inr ⟨hA, Or.inl rfl⟩
  rw [if_neg hB]
  cases hTry : try_synonyms strict orig c.token st.updated (synUnion c) with
  | some nt =>
    simp only [hTry]
    exact Or.inr ⟨hA, Or.inr (Or.inl ⟨nt, rfl⟩)⟩
  | none =>
    simp only [hTry]
    by_cases hC : ¬ strict = true ∧ st.usage c.token < 2
    · rw [if_pos hC]; exact Or.inr ⟨hA, Or.inr (Or.inr rfl)⟩
    · rw [if_neg hC]; exact Or.inl rfl

theorem keyword_step_cap (strict : Bool) (orig : Tok) (st : KwState)
    (c : Cand) (h : ∀ t, st.inserted t ≤ 2 ∧ st.inserted t ≤ st.usage t) :
    ∀ t, (keyword_step strict orig st c).inserted t ≤ 2 ∧
      (keyword_step strict orig st c).inserted t ≤
        (keyword_step strict orig st c).usage t := by
  intro t
  rcases keyword_step_shape strict orig st c with he | ⟨hA, he | ⟨txt, he⟩ | he⟩ <;>
    rw [he]
  · exact h t
  · refine ⟨(h t).1, ?_⟩
    simp only [bump_apply]
    have h1 := (h t).2
    split_ifs <;> omega
  · simp only [bump_apply]
    split_ifs with hEq
    · subst hEq
      have h1 := (h c.token).1
      have h2 := (h c.token).2
      constructor <;> omega
    · exact h t
  · simp only [bump_apply]
    split_ifs with hEq
    · subst hEq
      have h1 := (h c.token).1
      have h2 := (h c.token).2
      constructor <;> omega
    · exact h t

theorem keyword_step_decomp (strict : Bool) (orig : Tok) (st : KwState)
    (c : Cand) (h : ∀ t, st.usage t = st.inserted t + st.recorded t) :
    ∀ t, (keyword_step strict orig st c).usage t =
      (keyword_step strict orig st c).inserted t +
      (keyword_step strict orig st c).recorded t := by
  intro t
  rcases keyword_step_shape strict orig st c with he | ⟨hA, he | ⟨txt, he⟩ | he⟩ <;>
    rw [he]
  · exact h t
  all_goals
    simp only [bump_apply]
    split_ifs with hEq
    · subst hEq
      have h1 := h c.token
      omega
    · exact h t

theorem foldl_keyword_step_cap (strict : Bool) (orig : Tok) (ks : List Cand) :
    ∀ st : KwState, (∀ t, st.inserted t ≤ 2 ∧ st.inserted t ≤ st.usage t) →
      ∀ t, (ks.foldl (keyword_step strict orig) st).inserted t ≤ 2 ∧
        (ks.foldl (keyword_step strict orig) st).inserted t ≤
          (ks.foldl (keyword_step strict orig) st).usage t := by
  induction ks with
  | nil => intro st h t; exact h t
  | cons c rest ih =>
    intro st h t
    exact ih (keyword_step strict orig st c)
      (keyword_step_cap strict orig st c h) t

theorem foldl_keyword_step_decomp (strict : Bool) (orig : Tok)
    (ks : List Cand) :
    ∀ st : KwState, (∀ t, st.usage t = st.inserted t + st.recorded t) →
      ∀ t, (ks.foldl (keyword_step strict orig) st).usage t =
        (ks.foldl (keyword_step strict orig) st).inserted t +
          (ks.foldl (keyword_step strict orig) st).recorded t := by
  induction ks with
  | nil => intro st h t; exact h t
  | cons c rest ih =>
    intro st h t
    exact ih (keyword_step strict orig st c)
      (keyword_step_decomp strict orig st c h) t

theorem bullet_step_cap (ai : Nat → Option Tok) (uo strict : Bool)
    (ks : List Cand) (idx : Nat) (b : Bullet) (lines : List Tok)
    (u i r : Counter) (a : Nat)
    (h : ∀ t, i t ≤ 2 ∧ i t ≤ u t) :
    ∀ t, (bullet_step ai uo strict ks idx b lines u i r a).inserted t ≤ 2 ∧
      (bullet_step ai uo strict ks idx b lines u i r a).inserted t ≤
        (bullet_step ai uo strict ks idx b lines u i r a).usage t := by
  intro t
  simp only [bullet_step, ne_eq]
  by_cases hai : (if uo = true then optimize_bullet_openai (ai idx) strict
      b.content else b.content) = b.content
  · rw [if_neg (not_not_intro hai)]
    split_ifs <;> exact foldl_keyword_step_cap strict b.content ks _ h t
  · rw [if_pos hai]
    exact ⟨(h t).1, le_trans (h t).2 (le_bumpAll ks _ u t)⟩

theorem bullet_step_decomp (ai : Nat → Option Tok) (uo strict : Bool)
    (ks : List Cand) (idx : Nat) (b : Bullet) (lines : List Tok)
    (u i r : Counter) (a : Nat)
    (h : ∀ t, u t = i t + r t) :
    ∀ t, (bullet_step ai uo strict ks idx b lines u i r a).usage t =
      (bullet_step ai uo strict ks idx b lines u i r a).inserted t +
        (bullet_step ai uo strict ks idx b lines u i r a).recorded t := by
  intro t
  simp only [bullet_step, ne_eq]
  by_cases hai : (if uo = true then optimize_bullet_openai (ai idx) strict
      b.content else b.content) = b.content
  · rw [if_neg (not_not_intro hai)]
    split_ifs <;> exact foldl_keyword_step_decomp strict b.content ks _ h t
  · rw [if_pos hai]
    have hoff := bumpAll_offset ks
      (if uo = true then optimize_bullet_openai (ai idx) strict b.content
        else b.content) u r i (fun t' => by rw [h t']; omega) t
    exact (by omega :
      bumpAll ks (if uo = true then optimize_bullet_openai (ai idx) strict
          b.content else b.content) u t =
        i t + bumpAll ks (if uo = true then optimize_bullet_openai (ai idx)
          strict b.content else b.content) r t)

theorem run_bullets_cap (ai : Nat → Option Tok) (uo strict : Bool)
    (ks : List Cand) :
    ∀ (bs : List Bullet) (idx : Nat) (lines : List Tok) (u i r : Counter)
      (a : Nat), (∀ t, i t ≤ 2 ∧ i t ≤ u t) →
      ∀ t, (run_bullets ai uo strict ks bs idx lines u i r a).inserted t ≤ 2 := by
  intro bs
  induction bs with
  | nil => intro idx lines u i r a h t; exact (h t).1
  | cons b rest ih =>
    intro idx lines u i r a h t
    exact ih (idx + 1) _ _ _ _ _
      (bullet_step_cap ai uo strict ks idx b lines u i r a h) t

theorem run_bullets_decomp (ai : Nat → Option Tok) (uo strict : Bool)
    (ks : List Cand) :
    ∀ (bs : List Bullet) (idx : Nat) (lines : List Tok) (u i r : Counter)
      (a : Nat), (∀ t, u t = i t + r t) →
      ∀ t, (run_bullets ai uo strict ks bs idx lines u i r a).usage t =
        (run_bullets ai uo strict ks bs idx lines u i r a).inserted t +
          (run_bullets ai uo strict ks bs idx lines u i r a).recorded t := by
  intro bs
  induction bs with
  | nil => intro idx lines u i r a h t; exact h t
  | cons b rest ih =>
    intro idx lines u i r a h t
    exact ih (idx + 1) _ _ _ _ _
      (bullet_step_decomp ai uo strict ks idx b lines u i r a h) t

/-- C2 counterexample: one bullet already containing the keyword three
times pushes its ledger count to 3 in a single recording step, exceeding
the claimed bound of 2 — while the rewriter inserted nothing. -/
theorem C2_counterexample :
    (optimize_resume_run (fun _ => none) false false
        "\\item aaa aaa aaa".data [⟨"aaa".data, 1, []⟩]).usage "aaa".data = 3 ∧
    (optimize_resume_run (fun _ => none) false false
        "\\item aaa aaa aaa".data [⟨"aaa".data, 1, []⟩]).inserted "aaa".data
      = 0 := by decide

/-- C2 amended: across every rewrite run (any oracle, any flags) the number
of insertion events (synonym substitutions plus parenthetical appends)
performed for any keyword is at most 2; and whenever a keyword's ledger
count has reached 2 at the start of its turn, the keyword-loop step is
skipped outright — no substitution and no append, the state is unchanged.
The ledger value itself can exceed 2, because pre-existing occurrences are
recorded into it wholesale (see the counterexample). -/
theorem C2_insertions_capped (ai : Nat → Option Tok) (use_openai strict : Bool)
    (tex_content : Tok) (keywords : List Cand) :
    (∀ t, (optimize_resume_run ai use_openai strict tex_content
        keywords).inserted t ≤ 2) ∧
    (∀ (strict' : Bool) (orig : Tok) (st : KwState) (c : Cand),
      2 ≤ st.usage c.token → keyword_step strict' orig st c = st) :=
  ⟨fun t => run_bullets_cap ai use_openai strict keywords
      (parse_document tex_content).bullets 0 (parse_document tex_content).lines
      zeroC zeroC zeroC 0 (fun _ => ⟨Nat.zero_le 2, Nat.le_refl 0⟩) t,
   keyword_step_skip⟩

/-- C2 witness: the insertion cap evaluated on a concrete run, and the
skip behaviour applied to a state whose ledger already holds 2. -/
theorem C2_witness :
    (optimize_resume_run (fun _ => none) false false
        "\\item aaa aaa aaa".data [⟨"aaa".data, 1, []⟩]).inserted "aaa".data
      ≤ 2 ∧
    keyword_step false "x".data
        ⟨"x".data, fun _ => 2, zeroC, zeroC, zeroC, 0⟩ ⟨"kw".data, 1, []⟩ =
      ⟨"x".data, fun _ => 2, zeroC, zeroC, zeroC, 0⟩ :=
  ⟨(C2_insertions_capped (fun _ => none) false false "\\item aaa aaa aaa".data
      [⟨"aaa".data, 1, []⟩]).1 "aaa".data,
   (C2_insertions_capped (fun _ => none) false false "\\item aaa aaa aaa".data
      [⟨"aaa".data, 1, []⟩]).2 false "x".data
      ⟨"x".data, fun _ => 2, zeroC, zeroC, zeroC, 0⟩ ⟨"kw".data, 1, []⟩
      (by decide)⟩

/-- C7 counterexample: a keyword present twice in the original first bullet
is recorded into the ledger (count 2) although nothing was inserted, and
that recorded count consumes the cap: the second bullet receives no
parenthetical append even though the policy is non-strict, leaving the
whole document unchanged. -/
theorem C7_counterexample :
    (optimize_resume_run (fun _ => none) false false
        "\\item python python\n\\item zzz".data
        [⟨"python".data, 1, []⟩]).usage "python".data = 2 ∧
    (optimize_resume_run (fun _ => none) false false
        "\\item python python\n\\item zzz".data
        [⟨"python".data, 1, []⟩]).inserted "python".data = 0 ∧
    (optimize_resume (fun _ => none) false false
        "\\item python python\n\\item zzz".data
        [⟨"python".data, 1, []⟩]).optimized_tex =
      "\\item python python\n\\item zzz".data := by decide

/-- C7 amended: in every rewrite run the ledger decomposes exactly into the
newly-inserted count plus the recorded count of occurrences that were
already present (the already-present branch and the AI branch); pre-existing
occurrences are counted in the ledger and therefore do consume the cap. -/
theorem C7_ledger_decomposition (ai : Nat → Option Tok)
    (use_openai strict : Bool) (tex_content : Tok) (keywords : List Cand)
    (t : Tok) :
    (optimize_resume_run ai use_openai strict tex_content keywords).usage t =
      (optimize_resume_run ai use_openai strict tex_content
          keywords).inserted t +
        (optimize_resume_run ai use_openai strict tex_content
          keywords).recorded t :=
  run_bullets_decomp ai use_openai strict keywords
    (parse_document tex_content).bullets 0 (parse_document tex_content).lines
    zeroC zeroC zeroC 0 (fun _ => rfl) t

/-! ### Claim C9: keywords with no synonyms under strict policy -/

theorem keyword_step_updated_no_syn (orig : Tok) (st : KwState) (c : Cand)
    (hsyn : synUnion c = []) :
    (keyword_step true orig st c).updated = st.updated := by
  unfold keyword_step
  rw [hsyn]
  by_cases hA : 2 ≤ st.usage c.token
  · rw [if_pos hA]
  rw [if_neg hA]
  by_cases hB : 1 ≤ st.perB c.token
  · rw [if_pos hB]
  rw [if_neg hB]
  simp only [try_synonyms]
  rw [if_neg (by simp)]

theorem foldl_keyword_step_updated (orig : Tok) :
    ∀ (ks : List Cand) (st : KwState), (∀ c ∈ ks, synUnion c = []) →
      (ks.foldl (keyword_step true orig) st).updated = st.updated := by
  intro ks
  induction ks with
  | nil => intro st _; rfl
  | cons c rest ih =>
    intro st h
    rw [List.foldl_cons]
    rw [ih _ (fun c' hc' => h c' (List.mem_cons_of_mem _ hc'))]
    exact keyword_step_updated_no_syn orig st c (h c (List.mem_cons_self _ _))

theorem bullet_step_no_edit (ks : List Cand) (idx : Nat) (b : Bullet)
    (lines : List Tok) (u i r : Counter) (a : Nat)
    (h : ∀ c ∈ ks, synUnion c = []) :
    (bullet_step (fun _ => none) false true ks idx b lines u i r a).lines =
      lines := by
  simp only [bullet_step, ne_eq]
  have hbase : (if false = true then optimize_bullet_openai none true b.content
      else b.content) = b.content := rfl
  rw [if_neg (not_not_intro hbase)]
  have hupd : (List.foldl (keyword_step true b.content)
      ⟨b.content, u, fun t => countSub (pyLower b.content) t, i, r, a⟩
      ks).updated = b.content :=
    foldl_keyword_step_updated b.content ks _ h
  rw [hupd, natDist_self]
  rw [ite_self]
  rw [if_neg (not_not_intro rfl)]

theorem run_bullets_no_edit (ks : List Cand)
    (h : ∀ c ∈ ks, synUnion c = []) :
    ∀ (bs : List Bullet) (idx : Nat) (lines : List Tok) (u i r : Counter)
      (a : Nat),
      (run_bullets (fun _ => none) false true ks bs idx lines u i r a).lines =
        lines := by
  intro bs
  induction bs with
  | nil => intro idx lines u i r a; rfl
  | cons b rest ih =>
    intro idx lines u i r a
    show (run_bullets (fun _ => none) false true ks rest (idx + 1) _ _ _ _
      _).lines = lines
    rw [ih (idx + 1)]
    exact bullet_step_no_edit ks idx b lines u i r a h

/-- C9 counterexample: under strict policy the keyword `use golang` has no
synonyms (curated or supplied) and receives no insertion, yet its
`keyword_map` entry moves from `before = 0` to `after = 1`: the synonym
substitution performed for the other keyword `golang` (replacing
`go-lang`) creates an occurrence of `use golang` as a side effect, so
`before == after` fails for an unaddressed keyword. -/
theorem C9_counterexample :
    synUnion ⟨"use golang".data, 1, []⟩ = [] ∧
    (optimize_resume_run (fun _ => none) false true
        "\\item use go-lang daily".data
        [⟨"golang".data, 2, ["go-lang".data]⟩,
         ⟨"use golang".data, 1, []⟩]).inserted "use golang".data = 0 ∧
    (optimize_resume (fun _ => none) false true
        "\\item use go-lang daily".data
        [⟨"golang".data, 2, ["go-lang".data]⟩,
         ⟨"use golang".data, 1, []⟩]).keyword_map =
      [("golang".data, 0, 1), ("use golang".data, 0, 1)] := by decide

/-- C9 amended: the rewrite is a total function (the embedding never
raises), and a keyword with no synonyms under the strict policy receives
no substitution and no append; its keyword-map entry satisfies
`before == after` provided no other keyword's edit changes its occurrence
count — in particular, when every keyword lacks synonyms, the strict
rewrite leaves the document text unchanged (up to the parser's
newline-join normalisation, assumed exact here) and every entry has
`before == after`. -/
theorem C9_no_syn_strict_unaddressed (tex_content : Tok) (keywords : List Cand)
    (h1 : ∀ c ∈ keywords, synUnion c = [])
    (h2 : render (splitlines tex_content) = tex_content) :
    (optimize_resume (fun _ => none) false true tex_content
        keywords).optimized_tex = tex_content ∧
    ∀ e ∈ (optimize_resume (fun _ => none) false true tex_content
        keywords).keyword_map, e.2.1 = e.2.2 := by
  have hlines : (optimize_resume_run (fun _ => none) false true tex_content
      keywords).lines = (parse_document tex_content).lines :=
    run_bullets_no_edit keywords h1 (parse_document tex_content).bullets 0
      (parse_document tex_content).lines zeroC zeroC zeroC 0
  have hopt : (optimize_resume (fun _ => none) false true tex_content
      keywords).optimized_tex = tex_content := by
    show render (optimize_resume_run (fun _ => none) false true tex_content
      keywords).lines = tex_content
    rw [hlines]
    exact h2
  refine ⟨hopt, ?_⟩
  intro e he
  simp only [optimize_resume, List.mem_map] at he
  obtain ⟨c, _, rfl⟩ := he
  show countSub (pyLower tex_content) c.token =
    countSub (pyLower (render (optimize_resume_run (fun _ => none) false true
      tex_content keywords).lines)) c.token
  rw [hlines]
  show countSub (pyLower tex_content) c.token =
    countSub (pyLower (render (splitlines tex_content))) c.token
  rw [h2]

/-- C9 witness: the amended statement applied to a concrete one-bullet
document and a synonym-free keyword. -/
theorem C9_witness :
    (optimize_resume (fun _ => none) false true "\\item zzz".data
        [⟨"qqq".data, 1, []⟩]).optimized_tex = "\\item zzz".data ∧
    ∀ e ∈ (optimize_resume (fun _ => none) false true "\\item zzz".data
        [⟨"qqq".data, 1, []⟩]).keyword_map, e.2.1 = e.2.2 :=
  C9_no_syn_strict_unaddressed "\\item zzz".data [⟨"qqq".data, 1, []⟩]
    (by decide) (by decide)

/-! ### Sorting theory for claim C5 -/

theorem insertLE_perm (le : α → α → Bool) (a : α) :
    ∀ l : List α, (insertLE le a l).Perm (a :: l) := by
  intro l
  induction l with
  | nil => exact List.Perm.refl _
  | cons b t ih =>
    unfold insertLE
    split_ifs
    · exact List.Perm.refl _
    · exact (List.Perm.cons b ih).trans (List.Perm.swap a b t)

theorem sortLE_perm (le : α → α → Bool) :
    ∀ l : List α, (sortLE le l).Perm l := by
  intro l
  induction l with
  | nil => exact List.Perm.refl _
  | cons a t ih =>
    exact (insertLE_perm le a (sortLE le t)).trans (List.Perm.cons a ih)

theorem insertLE_pairwise (le : α → α → Bool)
    (htot : ∀ a b, le a b = true ∨ le b a = true)
    (htrans : ∀ a b c, le a b = true → le b c = true → le a c = true)
    (a : α) :
    ∀ l : List α, l.Pairwise (fun x y => le x y = true) →
      (insertLE le a l).Pairwise (fun x y => le x y = true) := by
  intro l
  induction l with
  | nil => intro _; exact List.pairwise_singleton _ _
  | cons b t ih =>
    intro h
    rcases List.pairwise_cons.mp h with ⟨hb, ht⟩
    unfold insertLE
    split_ifs with hab
    · refine List.pairwise_cons.mpr ⟨?_, h⟩
      intro x hx
      rcases List.mem_cons.mp hx with rfl | hxt
      · exact hab
      · exact htrans a b x hab (hb x hxt)
    · have hba : le b a = true := by
        rcases htot a b with h1 | h1
        · exact absurd h1 hab
        · exact h1
      refine List.pairwise_cons.mpr ⟨?_, ih ht⟩
      intro x hx
      have hx' : x ∈ a :: t := (insertLE_perm le a t).mem_iff.mp hx
      rcases List.mem_cons.mp hx' with rfl | hxt
      · exact hba
      · exact hb x hxt

theorem sortLE_pairwise (le : α → α → Bool)
    (htot : ∀ a b, le a b = true ∨ le b a = true)
    (htrans : ∀ a b c, le a b = true → le b c = true → le a c = true) :
    ∀ l : List α, (sortLE le l).Pairwise (fun x y => le x y = true) := by
  intro l
  induction l with
  | nil => exact List.Pairwise.nil
  | cons a t ih => exact insertLE_pairwise le htot htrans a (sortLE le t) ih

theorem eq_of_perm_of_pairwise {le : α → α → Bool} :
    ∀ {l₁ l₂ : List α}, l₁.Perm l₂ →
      l₁.Pairwise (fun x y => le x y = true) →
      l₂.Pairwise (fun x y => le x y = true) →
      (∀ a ∈ l₁, ∀ b ∈ l₁, le a b = true → le b a = true → a = b) →
      l₁ = l₂ := by
  intro l₁
  induction l₁ with
  | nil =>
    intro l₂ hp _ _ _
    exact (List.Perm.eq_nil hp.symm).symm
  | cons a t₁ ih =>
    intro l₂ hp h1 h2 hanti
    cases l₂ with
    | nil => exact absurd (List.Perm.eq_nil hp) (by simp)
    | cons b t₂ =>
      have hab : a = b := by
        by_contra hne
        have ha2 : a ∈ b :: t₂ := hp.mem_iff.mp (List.mem_cons_self _ _)
        have hat2 : a ∈ t₂ := by
          rcases List.mem_cons.mp ha2 with h | h
          · exact absurd h hne
          · exact h
        have hb1 : b ∈ a :: t₁ := hp.mem_iff.mpr (List.mem_cons_self _ _)
        have hbt1 : b ∈ t₁ := by
          rcases List.mem_cons.mp hb1 with h | h
          · exact absurd h.symm hne
          · exact h
        have hle_ab : le a b = true :=
          (List.pairwise_cons.mp h1).1 b hbt1
        have hle_ba : le b a = true :=
          (List.pairwise_cons.mp h2).1 a hat2
        exact hne (hanti a (List.mem_cons_self _ _) b hb1 hle_ab hle_ba)
      subst hab
      have hp' : t₁.Perm t₂ := hp.cons_inv
      have ht1 := (List.pairwise_cons.mp h1).2
      have ht2 := (List.pairwise_cons.mp h2).2
      have hanti' : ∀ x ∈ t₁, ∀ y ∈ t₁, le x y = true → le y x = true → x = y :=
        fun x hx y hy => hanti x (List.mem_cons_of_mem _ hx) y
          (List.mem_cons_of_mem _ hy)
      rw [ih hp' ht1 ht2 hanti']

theorem candLE_total (fs : Tok → Nat) (a b : Cand) :
    candLE fs a b = true ∨ candLE fs b a = true := by
  simp only [candLE, Bool.or_eq_true, Bool.and_eq_true, decide_eq_true_eq]
  rcases lt_trichotomy a.score b.score with h | h | h
  · exact Or.inr (Or.inl h)
  · rcases Nat.le_total (fs a.token) (fs b.token) with h2 | h2
    · exact Or.inl (Or.inr ⟨h, h2⟩)
    · exact Or.inr (Or.inr ⟨h.symm, h2⟩)
  · exact Or.inl (Or.inl h)

theorem candLE_trans (fs : Tok → Nat) (a b c : Cand) :
    candLE fs a b = true → candLE fs b c = true → candLE fs a c = true := by
  simp only [candLE, Bool.or_eq_true, Bool.and_eq_true, decide_eq_true_eq]
  rintro (h1 | ⟨h1, h1'⟩) (h2 | ⟨h2, h2'⟩)
  · exact Or.inl (lt_trans h2 h1)
  · exact Or.inl (h2 ▸ h1)
  · exact Or.inl (by rw [h1]; exact h2)
  · exact Or.inr ⟨h1.trans h2, h1'.trans h2'⟩

theorem candLE_antisymm_key (fs : Tok → Nat) (a b : Cand)
    (h1 : candLE fs a b = true) (h2 : candLE fs b a = true) :
    a.score = b.score ∧ fs a.token = fs b.token := by
  simp only [candLE, Bool.or_eq_true, Bool.and_eq_true, decide_eq_true_eq] at h1 h2
  rcases h1 with h1 | ⟨h1, h1'⟩ <;> rcases h2 with h2 | ⟨h2, h2'⟩
  · exact absurd h1 (lt_asymm h2)
  · exact absurd h1 (by rw [h2]; exact lt_irrefl _)
  · exact absurd h2 (by rw [h1]; exact lt_irrefl _)
  · exact ⟨h1, le_antisymm h1' h2'⟩

/-! ### Tokens and spaces (claim C5) -/

theorem toNat_ofNatAux (n : Nat) (h : n.isValidChar) :
    (Char.ofNatAux n h).toNat = n := by
  rcases h with h1 | ⟨h1, h2⟩ <;>
    simp [Char.ofNatAux, Char.toNat, UInt32.toNat]

theorem toLower_eq_space (c : Char) (h : Char.toLower c = ' ') : c = ' ' := by
  simp only [Char.toLower] at h
  split_ifs at h with hr
  · exfalso
    have hv : (c.toNat + 32).isValidChar := by
      left
      omega
    rw [Char.ofNat, dif_pos hv] at h
    have h2 := congrArg Char.toNat h
    rw [toNat_ofNatAux] at h2
    have hsp : (' ').toNat = 32 := rfl
    omega
  · exact h

theorem isTokChar_toLower_ne_space (c : Char) (h : isTokChar c = true) :
    Char.toLower c ≠ ' ' := by
  intro hc
  have := toLower_eq_space c hc
  subst this
  simp [isTokChar, isAsciiAlpha] at h

theorem isAsciiAlpha_toLower_ne_space (c : Char) (h : isAsciiAlpha c = true) :
    Char.toLower c ≠ ' ' := by
  intro hc
  have := toLower_eq_space c hc
  subst this
  simp [isAsciiAlpha] at h

theorem tokenizeF_shape : ∀ (fuel : Nat) (s t : Tok), t ∈ tokenizeF fuel s →
    ∃ c run, t = c :: run ∧ isAsciiAlpha c = true ∧
      ∀ ch ∈ run, isTokChar ch = true := by
  intro fuel
  induction fuel with
  | zero => intro s t h; simp [tokenizeF] at h
  | succ n ih =>
    intro s t h
    cases s with
    | nil => simp [tokenizeF] at h
    | cons c rest =>
      simp only [tokenizeF] at h
      split_ifs at h with h1 h2
      · rcases List.mem_cons.mp h with rfl | h3
        · exact ⟨c, rest.takeWhile isTokChar, rfl, h1,
            fun ch hch => List.mem_takeWhile_imp hch⟩
        · exact ih _ t h3
      · exact ih _ t h
      · exact ih _ t h

theorem normalise_no_space (text : Tok) :
    ∀ t ∈ normalise text, ' ' ∉ t := by
  intro t ht hsp
  simp only [normalise, List.mem_filter, List.mem_map] at ht
  obtain ⟨⟨t0, ht0, rfl⟩, _⟩ := ht
  obtain ⟨c, run, rfl, hc, hrun⟩ := tokenizeF_shape _ _ t0 ht0
  simp only [pyLower, List.map_cons, List.mem_cons, List.mem_map] at hsp
  rcases hsp with hsp | ⟨ch, hch, hsp⟩
  · exact isAsciiAlpha_toLower_ne_space c hc hsp.symm
  · exact isTokChar_toLower_ne_space ch (hrun ch hch) hsp

theorem bigramsOf_space : ∀ (ts : List Tok) (b : Tok), b ∈ bigramsOf ts →
    ' ' ∈ b := by
  intro ts
  induction ts with
  | nil => intro b h; simp [bigramsOf] at h
  | cons a rest ih =>
    intro b h
    cases rest with
    | nil => simp [bigramsOf] at h
    | cons a2 rest2 =>
      simp only [bigramsOf, List.mem_cons] at h
      rcases h with rfl | h
      · simp
      · exact ih b h

theorem contains_iff_mem (l : List Tok) (t : Tok) :
    l.contains t = true ↔ t ∈ l := by
  simp [List.contains, List.elem_iff]

/-! ### Keys, first-seen indices, injectivity (claim C5) -/

theorem uniqKeysF_mem : ∀ (fuel : Nat) (l : List Tok) (t : Tok),
    l.length < fuel → (t ∈ uniqKeysF fuel l ↔ t ∈ l) := by
  intro fuel
  induction fuel with
  | zero => intro l t h; omega
  | succ n ih =>
    intro l t h
    cases l with
    | nil => simp [uniqKeysF]
    | cons a rest =>
      have hlen := List.length_filter_le (fun b => b ≠ a) rest
      simp only [List.length_cons] at h
      simp only [uniqKeysF, List.mem_cons]
      rw [ih _ t (by omega)]
      simp only [List.mem_filter, decide_eq_true_eq]
      by_cases hta : t = a
      · simp [hta]
      · simp [hta]

theorem uniqKeysF_nodup : ∀ (fuel : Nat) (l : List Tok),
    l.length < fuel → (uniqKeysF fuel l).Nodup := by
  intro fuel
  induction fuel with
  | zero => intro l h; omega
  | succ n ih =>
    intro l h
    cases l with
    | nil => simp [uniqKeysF]
    | cons a rest =>
      have hlen := List.length_filter_le (fun b => b ≠ a) rest
      simp only [List.length_cons] at h
      simp only [uniqKeysF]
      refine List.nodup_cons.mpr ⟨?_, ih _ (by omega)⟩
      intro hmem
      have := (uniqKeysF_mem n _ a (by omega)).mp hmem
      simp at this

theorem uniqKeys_mem (l : List Tok) (t : Tok) : t ∈ uniqKeys l ↔ t ∈ l :=
  uniqKeysF_mem _ l t (by omega)

theorem uniqKeys_nodup (l : List Tok) : (uniqKeys l).Nodup :=
  uniqKeysF_nodup _ l (by omega)

theorem firstIdx_lt : ∀ (l : List Tok) (t : Tok), t ∈ l →
    firstIdx l t < l.length := by
  intro l
  induction l with
  | nil => intro t h; simp at h
  | cons a rest ih =>
    intro t h
    simp only [firstIdx]
    split_ifs with ha
    · simp
    · have ht : t ∈ rest := by
        rcases List.mem_cons.mp h with rfl | h2
        · exact absurd rfl ha
        · exact h2
      have := ih t ht
      simp only [List.length_cons]
      omega

theorem firstIdx_inj : ∀ (l : List Tok) (t₁ t₂ : Tok), t₁ ∈ l → t₂ ∈ l →
    firstIdx l t₁ = firstIdx l t₂ → t₁ = t₂ := by
  intro l
  induction l with
  | nil => intro t₁ t₂ h; simp at h
  | cons a rest ih =>
    intro t₁ t₂ h1 h2 he
    simp only [firstIdx] at he
    split_ifs at he with ha1 ha2 ha2
    · rw [← ha1, ← ha2]
    · omega
    · omega
    · have ht1 : t₁ ∈ rest := by
        rcases List.mem_cons.mp h1 with rfl | h
        · exact absurd rfl ha1
        · exact h
      have ht2 : t₂ ∈ rest := by
        rcases List.mem_cons.mp h2 with rfl | h
        · exact absurd rfl ha2
        · exact h
      exact ih t₁ t₂ ht1 ht2 (by omega)

theorem firstSeen_inj (tokens bis : List Tok)
    (ht : ∀ t ∈ tokens, ' ' ∉ t) (hb : ∀ b ∈ bis, ' ' ∈ b) :
    ∀ t₁ t₂, (t₁ ∈ tokens ∨ t₁ ∈ bis) → (t₂ ∈ tokens ∨ t₂ ∈ bis) →
      firstSeen tokens bis t₁ = firstSeen tokens bis t₂ → t₁ = t₂ := by
  intro t₁ t₂ h1 h2 he
  have hcont : ∀ t, t ∈ bis → tokens.contains t = false := by
    intro t htb
    by_contra hc
    have : tokens.contains t = true := by
      cases h : tokens.contains t
      · exact absurd h hc
      · rfl
    exact ht t ((contains_iff_mem _ _).mp this) (hb t htb)
  unfold firstSeen at he
  rcases h1 with h1 | h1 <;> rcases h2 with h2 | h2
  · rw [if_pos ((contains_iff_mem _ _).mpr h1),
        if_pos ((contains_iff_mem _ _).mpr h2)] at he
    exact firstIdx_inj tokens t₁ t₂ h1 h2 he
  · rw [if_pos ((contains_iff_mem _ _).mpr h1), hcont t₂ h2] at he
    have := firstIdx_lt tokens t₁ h1
    simp at he
    omega
  · rw [hcont t₁ h1, if_pos ((contains_iff_mem _ _).mpr h2)] at he
    have := firstIdx_lt tokens t₂ h2
    simp at he
    omega
  · rw [hcont t₁ h1, hcont t₂ h2] at he
    simp at he
    exact firstIdx_inj bis t₁ t₂ h1 h2 (by omega)

/-! ### Deduplication (claim C5) -/

theorem dedupLoop_eq : ∀ (cands : List Cand) (seen : List Tok)
    (acc : List Cand) (maxK : Nat), acc.length < maxK →
    dedupLoop maxK cands seen acc =
      acc.reverse ++ (dedupBy cands seen).take (maxK - acc.length) := by
  intro cands
  induction cands with
  | nil =>
    intro seen acc maxK h
    simp [dedupLoop, dedupBy]
  | cons c rest ih =>
    intro seen acc maxK h
    simp only [dedupLoop, dedupBy]
    split_ifs with hc hful
    · exact ih seen acc maxK h
    · have hm : maxK - acc.length = 1 := by omega
      rw [hm]
      simp [List.take]
    · rw [ih (c.token :: seen) (c :: acc) maxK (by simp; omega)]
      have hm : maxK - acc.length = (maxK - (c :: acc).length) + 1 := by
        simp only [List.length_cons]
        omega
      rw [hm]
      simp only [List.take_succ_cons, List.reverse_cons]
      rw [List.append_assoc]
      simp

theorem dedupBy_tokens (cands : List Cand) : ∀ (seen : List Tok),
    ((dedupBy cands seen).map Cand.token).Nodup ∧
      ∀ t ∈ (dedupBy cands seen).map Cand.token, ¬ t ∈ seen := by
  induction cands with
  | nil => intro seen; simp [dedupBy]
  | cons c rest ih =>
    intro seen
    simp only [dedupBy]
    split_ifs with hc
    · exact ih seen
    · have hrest := ih (c.token :: seen)
      simp only [List.map_cons]
      constructor
      · refine List.nodup_cons.mpr ⟨?_, hrest.1⟩
        intro hmem
        exact hrest.2 c.token hmem (List.mem_cons_self _ _)
      · intro t htmem
        rcases List.mem_cons.mp htmem with rfl | hmem
        · intro hts
          exact hc ((contains_iff_mem _ _).mpr hts)
        · intro hts
          exact hrest.2 t hmem (List.mem_cons_of_mem _ hts)

/-! ### The candidate-order theorem (claim C5) -/

theorem mem_cands_token (tokens bis : List Tok) (a : Cand)
    (ha : a ∈ uniCands tokens ++ biCands bis) :
    a.token ∈ tokens ∨ a.token ∈ bis := by
  rcases List.mem_append.mp ha with h | h
  · left
    simp only [uniCands, List.mem_map] at h
    obtain ⟨t, htmem, rfl⟩ := h
    exact (uniqKeys_mem tokens t).mp ((sortLE_perm _ _).mem_iff.mp htmem)
  · right
    simp only [biCands, List.mem_map] at h
    obtain ⟨t, htmem, rfl⟩ := h
    have := (List.mem_filter.mp htmem).1
    exact (uniqKeys_mem bis t).mp ((sortLE_perm _ _).mem_iff.mp this)

theorem sorted_cands_eq (tokens bis : List Tok)
    (ht : ∀ t ∈ tokens, ' ' ∉ t) (hbsp : ∀ b ∈ bis, ' ' ∈ b) :
    sortLE (candLE (firstSeen tokens bis)) (uniCands tokens ++ biCands bis) =
      sortLE (candLE (firstSeen tokens bis))
        ((uniqKeys tokens).map
            (fun t => (⟨t, (tokens.count t : ℚ), SYNONYMS t⟩ : Cand)) ++
          ((uniqKeys bis).filter okBigram).map
            (fun t => (⟨t, (bis.count t : ℚ) + 1/2, []⟩ : Cand))) := by
  have hperm : (uniCands tokens ++ biCands bis).Perm
      ((uniqKeys tokens).map
          (fun t => (⟨t, (tokens.count t : ℚ), SYNONYMS t⟩ : Cand)) ++
        ((uniqKeys bis).filter okBigram).map
          (fun t => (⟨t, (bis.count t : ℚ) + 1/2, []⟩ : Cand))) := by
    refine List.Perm.append ?_ ?_
    · exact List.Perm.map _ (sortLE_perm _ _)
    · exact List.Perm.map _ (List.Perm.filter _ (sortLE_perm _ _))
  have hRLtokens : (((uniqKeys tokens).map
      (fun t => (⟨t, (tokens.count t : ℚ), SYNONYMS t⟩ : Cand)) ++
        ((uniqKeys bis).filter okBigram).map
          (fun t => (⟨t, (bis.count t : ℚ) + 1/2, []⟩ : Cand))).map Cand.token) =
      uniqKeys tokens ++ (uniqKeys bis).filter okBigram := by
    simp [List.map_map, Function.comp_def]
  have hRLnodup : (((uniqKeys tokens).map
      (fun t => (⟨t, (tokens.count t : ℚ), SYNONYMS t⟩ : Cand)) ++
        ((uniqKeys bis).filter okBigram).map
          (fun t => (⟨t, (bis.count t : ℚ) + 1/2, []⟩ : Cand))).map Cand.token).Nodup := by
    rw [hRLtokens]
    refine List.nodup_append.mpr ⟨uniqKeys_nodup tokens,
      (uniqKeys_nodup bis).filter okBigram, ?_⟩
    intro t h1 h2
    have hsp := hbsp t ((uniqKeys_mem bis t).mp (List.mem_filter.mp h2).1)
    exact ht t ((uniqKeys_mem tokens t).mp h1) hsp
  have hCLnodup : ((uniCands tokens ++ biCands bis).map Cand.token).Nodup :=
    (List.Perm.nodup_iff (List.Perm.map Cand.token hperm)).mpr hRLnodup
  refine eq_of_perm_of_pairwise
    ((sortLE_perm _ _).trans (hperm.trans (sortLE_perm _ _).symm))
    (sortLE_pairwise _ (candLE_total _) (candLE_trans _) _)
    (sortLE_pairwise _ (candLE_total _) (candLE_trans _) _)
    ?_
  intro a ha b hb hab hba
  have haCL : a ∈ uniCands tokens ++ biCands bis := (sortLE_perm _ _).mem_iff.mp ha
  have hbCL : b ∈ uniCands tokens ++ biCands bis := (sortLE_perm _ _).mem_iff.mp hb
  have hkey := candLE_antisymm_key _ a b hab hba
  have htok : a.token = b.token :=
    firstSeen_inj tokens bis ht hbsp a.token b.token
      (mem_cands_token tokens bis a haCL) (mem_cands_token tokens bis b hbCL)
      hkey.2
  exact List.inj_on_of_nodup_map hCLnodup haCL hbCL htok

/-- C5 counterexample: with `max_keywords = 0`, the truncation loop checks
the bound only after appending, so the code returns one candidate while
the claim's reference definition returns none and the claimed length bound
fails. -/
theorem C5_counterexample :
    extract_keywords_basic "abc".data 0 = [⟨"abc".data, 1, []⟩] ∧
    reference_rank "abc".data 0 = [] ∧
    ¬ (extract_keywords_basic "abc".data 0).length ≤ 0 :=
  of_decide_eq_true (by with_unfolding_all rfl)

/-- C5 amended: for every text and every `max_keywords ≥ 1` the frequency
strategy equals the claim's reference definition (unigrams scored by count,
bigrams filtered by stop-word halves and scored count + 0.5, sorted by
`(-score, first-seen index)` with bigram indices offset past all unigram
indices, deduplicated keeping first, truncated), so the output has at most
`max_keywords` candidates and all tokens are distinct.  At
`max_keywords = 0` the code emits one candidate (see the
counterexample). -/
theorem C5_frequency_reference (text : Tok) (maxK : Nat) (h : 1 ≤ maxK) :
    extract_keywords_basic text maxK = reference_rank text maxK ∧
    (extract_keywords_basic text maxK).length ≤ maxK ∧
    ((extract_keywords_basic text maxK).map Cand.token).Nodup := by
  have heq : extract_keywords_basic text maxK = reference_rank text maxK := by
    simp only [extract_keywords_basic, reference_rank]
    by_cases hts : (normalise text).isEmpty
    · rw [if_pos hts]
      have h0 : normalise text = [] := List.isEmpty_iff.mp hts
      rw [h0]
      simp [bigramsOf, uniqKeys_nil, sortLE, dedupBy]
    · rw [if_neg hts]
      rw [sorted_cands_eq (normalise text) (bigramsOf (normalise text))
        (normalise_no_space text) (bigramsOf_space (normalise text))]
      rw [dedupLoop_eq _ [] [] maxK (by simpa using h)]
      simp
  refine ⟨heq, ?_, ?_⟩
  · rw [heq]
    simp only [reference_rank]
    exact List.length_take_le _ _
  · rw [heq]
    simp only [reference_rank]
    exact ((dedupBy_tokens _ []).1).sublist
      ((List.take_sublist _ _).map Cand.token)

/-- C5 witness: the amended equivalence applied to the repository's own
test text at `max_keywords = 5`. -/
theorem C5_witness :
    extract_keywords_basic
        "Python analytics automation python dashboard analytics".data 5 =
      reference_rank
        "Python analytics automation python dashboard analytics".data 5 :=
  (C5_frequency_reference
    "Python analytics automation python dashboard analytics".data 5
    (by norm_num)).1
